import Mathlib

/-!
# PPHO: worker pool and segment integration

A shallow embedding of `ThreadPool.cpp` / `ThreadPool.hpp` (the worker pool) and of
`main.cpp` (segment partition, `counting_segment`, the Aggregate merge).

Conventions of the embedding:

* everything protected by `queueMutex` (`stop`, `tasks`) is one record `ThreadPool`;
  a critical section is one atomic function on that record;
* a task is an element of an arbitrary type `τ` (a tag); running it appends the tag to
  an execution log, so "the task was executed" and "its completion handle was
  fulfilled" both read "the tag is in the log";
* threads are interleaved by an explicit list of events (a schedule);
* `double` is `F64`, IEEE 754 binary64 with round-to-nearest-even, gradual underflow,
  signed zeros, infinities and NaN; every operation is rounded on its own (no fused
  multiply-add, no extended precision); `int` is `Int`.
-/

namespace PPHO

/-! ## ThreadPool.hpp / ThreadPool.cpp -/

/-- The data of `class ThreadPool` guarded by `queueMutex`: the flag `stop` and the
queue `tasks` (head of the list = front of the queue). -/
structure ThreadPool (τ : Type) where
  stop : Bool
  tasks : List τ
deriving DecidableEq

/-- The exception of `enqueue`: `std::runtime_error("enqueue on stopped ThreadPool")`. -/
inductive PoolClosed where
  | enqueueOnStopped
deriving DecidableEq

/-- `ThreadPool::enqueue`, the critical section (ThreadPool.cpp 46-55): throws when
`stop` is set, otherwise `tasks.emplace(...)` at the back of the queue. -/
def ThreadPool.enqueue {τ : Type} (p : ThreadPool τ) (task : τ) :
    Except PoolClosed (ThreadPool τ) :=
  if p.stop then
    Except.error PoolClosed.enqueueOnStopped
  else
    Except.ok ⟨p.stop, p.tasks ++ [task]⟩

/-- What one pass of a worker through the critical section of `ThreadPool::run` does. -/
inductive Outcome (τ : Type) where
  /-- the predicate of `condition.wait` is false: the worker stays blocked -/
  | blocked
  /-- the `return` of line 19 -/
  | exited
  /-- the block was left with the local variable `task` (empty when `none`) -/
  | dequeued (task : Option τ)
deriving DecidableEq

/-- `ThreadPool::run`, the critical section (ThreadPool.cpp 12-27). -/
def ThreadPool.runLocked {τ : Type} (p : ThreadPool τ) : Outcome τ × ThreadPool τ :=
  -- condition.wait(lock, [this]{ return stop || !tasks.empty(); });
  if !(p.stop || !p.tasks.isEmpty) then
    (Outcome.blocked, p)
  -- if (stop || tasks.empty()) return;
  else if p.stop || p.tasks.isEmpty then
    (Outcome.exited, p)
  else
    -- if (!tasks.empty()) { task = std::move(tasks.front()); tasks.pop(); }
    match p.tasks with
    | t :: rest => (Outcome.dequeued (some t), ⟨p.stop, rest⟩)
    | [] => (Outcome.dequeued none, p)

/-- Where a worker thread is in `ThreadPool::run`. -/
inductive Worker (τ : Type) where
  /-- at the top of the loop, about to enter the critical section -/
  | waiting
  /-- past the critical section, holding the local variable `task` -/
  | running (task : Option τ)
  /-- returned from `run` -/
  | exited
deriving DecidableEq

/-- A pool together with its worker threads and the log of executed tasks
(in order of execution). -/
structure Sys (τ : Type) where
  pool : ThreadPool τ
  workers : List (Worker τ)
  log : List τ
deriving DecidableEq

/-- `ThreadPool::ThreadPool(threads)`: `stop(false)`, empty queue, `threads` workers
each entering `run()`. -/
def Sys.construct (τ : Type) (threads : Nat) : Sys τ :=
  ⟨⟨false, []⟩, List.replicate threads Worker.waiting, []⟩

/-- One scheduling step of worker number `w` of `ThreadPool::run`: the critical
section when it is waiting, `if (task) task();` when it holds a task. -/
def Sys.workerStep {τ : Type} (w : Nat) (s : Sys τ) : Sys τ :=
  match s.workers[w]? with
  | none => s
  | some Worker.exited => s
  | some Worker.waiting =>
    match s.pool.runLocked with
    | (Outcome.blocked, _) => s
    | (Outcome.exited, p) => ⟨p, s.workers.set w Worker.exited, s.log⟩
    | (Outcome.dequeued task, p) => ⟨p, s.workers.set w (Worker.running task), s.log⟩
  | some (Worker.running (some t)) => ⟨s.pool, s.workers.set w Worker.waiting, s.log ++ [t]⟩
  | some (Worker.running none) => ⟨s.pool, s.workers.set w Worker.waiting, s.log⟩

/-- A submitter thread calling `enqueue`: on the exception the pool is as before. -/
def Sys.submit {τ : Type} (t : τ) (s : Sys τ) : Sys τ :=
  match s.pool.enqueue t with
  | Except.ok p => ⟨p, s.workers, s.log⟩
  | Except.error _ => s

/-- `ThreadPool::~ThreadPool`, the critical section (ThreadPool.cpp 75-79): `stop = true`. -/
def Sys.shutdown {τ : Type} (s : Sys τ) : Sys τ :=
  ⟨⟨true, s.pool.tasks⟩, s.workers, s.log⟩

/-- The atomic actions a schedule is made of. -/
inductive Event (τ : Type) where
  | submit (t : τ)
  | step (w : Nat)
  | shutdown
deriving DecidableEq

/-- Effect of one event. -/
def Sys.fire {τ : Type} (s : Sys τ) : Event τ → Sys τ
  | Event.submit t => s.submit t
  | Event.step w => s.workerStep w
  | Event.shutdown => s.shutdown

/-- Effect of a schedule, first event first. -/
def Sys.exec {τ : Type} (s : Sys τ) (evs : List (Event τ)) : Sys τ :=
  evs.foldl Sys.fire s

/-- The tasks a schedule submits, in submission order. -/
def submitted {τ : Type} : List (Event τ) → List τ
  | [] => []
  | Event.submit t :: evs => t :: submitted evs
  | _ :: evs => submitted evs

/-- The tasks held by workers that are past the critical section. -/
def inflight {τ : Type} : List (Worker τ) → List τ
  | [] => []
  | Worker.running (some t) :: ws => t :: inflight ws
  | _ :: ws => inflight ws

/-- Invariant of a not-stopped pool with one worker: executed tasks, then the task the
worker holds, then the queue, spell the submissions `ts`. -/
def FifoInv {τ : Type} (ts : List τ) (s : Sys τ) : Prop :=
  s.pool.stop = false ∧
    ((s.workers = [Worker.waiting] ∧ s.log ++ s.pool.tasks = ts) ∨
      ∃ t, s.workers = [Worker.running (some t)] ∧ s.log ++ t :: s.pool.tasks = ts)

/-! ## `double`

A finite double is an integer multiple of `2^-1074` of at most 53 significant bits;
`F64.fin s m` is the double of sign `s` and magnitude `m * 2^-1074`. Every arithmetic
operation is the exact result rounded to nearest, ties to even. -/

/-- The values of `double`: NaN (one value, payloads are not distinguished), the two
infinities, and sign and magnitude (in units of `2^-1074`) of a finite number. -/
inductive F64 where
  | nan
  | inf (neg : Bool)
  | fin (neg : Bool) (m : Nat)
deriving DecidableEq

/-- The number of units `2^-1074` in `1.0`. -/
def F64.scale : Nat := 2 ^ 1074

/-- The magnitude `2^1024`, in units: a rounded magnitude that reaches it overflows. -/
def F64.huge : Nat := 2 ^ 2098

/-- The bound `2^53` of a 53-bit significand. -/
def F64.full : Nat := 2 ^ 53

/-- How many low bits of `n` must go so that at most 53 bits remain. -/
def F64.excess : Nat → Nat → Nat
  | 0, _ => 0
  | fuel + 1, n => if n < F64.full then 0 else F64.excess fuel (n / 2) + 1

/-- Rounding to nearest, ties to even, of the magnitude `a / d` units with sign `neg`:
the quotient is cut to 53 significant bits (to whole units below `2^53` units, which
is gradual underflow) and overflows to infinity from `2^1024` on. -/
@[irreducible]
def F64.round (neg : Bool) (a d : Nat) : F64 :=
  let sh := F64.excess (a / d) (a / d)
  let D := d * 2 ^ sh
  let q := a / D
  let r := a % D
  let q2 := if 2 * r < D then q else if D < 2 * r then q + 1
    else if q % 2 = 0 then q else q + 1
  if F64.huge ≤ q2 * 2 ^ sh then F64.inf neg else F64.fin neg (q2 * 2 ^ sh)

/-- Conversion `int -> double`. -/
def F64.ofInt (i : Int) : F64 := F64.round (decide (i < 0)) (i.natAbs * F64.scale) 1

/-- The double nearest to `p / q`, with sign `neg` (a decimal literal). -/
def F64.ofRatio (neg : Bool) (p q : Nat) : F64 := F64.round neg (p * F64.scale) q

/-- Unary minus. -/
def F64.neg : F64 → F64
  | F64.nan => F64.nan
  | F64.inf s => F64.inf (!s)
  | F64.fin s m => F64.fin (!s) m

/-- The sum `a + b`. -/
def F64.add : F64 → F64 → F64
  | F64.nan, _ => F64.nan
  | _, F64.nan => F64.nan
  | F64.inf s, F64.inf t => if s = t then F64.inf s else F64.nan
  | F64.inf s, F64.fin _ _ => F64.inf s
  | F64.fin _ _, F64.inf t => F64.inf t
  | F64.fin s m, F64.fin t n =>
    if s = t then F64.round s (m + n) 1
    else if n < m then F64.round s (m - n) 1
    else if m < n then F64.round t (n - m) 1
    else F64.fin false 0

/-- The difference `a - b`. -/
def F64.sub (a b : F64) : F64 := F64.add a (F64.neg b)

/-- The product `a * b`. -/
def F64.mul : F64 → F64 → F64
  | F64.nan, _ => F64.nan
  | _, F64.nan => F64.nan
  | F64.inf s, F64.inf t => F64.inf (xor s t)
  | F64.inf s, F64.fin t n => if n = 0 then F64.nan else F64.inf (xor s t)
  | F64.fin s m, F64.inf t => if m = 0 then F64.nan else F64.inf (xor s t)
  | F64.fin s m, F64.fin t n => F64.round (xor s t) (m * n) F64.scale

/-- The quotient `a / b`. -/
def F64.div : F64 → F64 → F64
  | F64.nan, _ => F64.nan
  | _, F64.nan => F64.nan
  | F64.inf _, F64.inf _ => F64.nan
  | F64.inf s, F64.fin t _ => F64.inf (xor s t)
  | F64.fin s _, F64.inf t => F64.fin (xor s t) 0
  | F64.fin s m, F64.fin t n =>
    if n = 0 then (if m = 0 then F64.nan else F64.inf (xor s t))
    else F64.round (xor s t) (m * F64.scale) n

/-- Whether the value is NaN. -/
def F64.isNaN : F64 → Bool
  | F64.nan => true
  | _ => false

/-- Whether the value is finite. -/
def F64.isFinite : F64 → Bool
  | F64.fin _ _ => true
  | _ => false

/-- Whether the value is `+0` or `-0`. -/
def F64.isZero : F64 → Bool
  | F64.fin _ 0 => true
  | _ => false

/-- Whether the value is a double: a finite magnitude must be its own rounding. -/
def F64.wellFormed : F64 → Bool
  | F64.fin s m => decide (F64.round s m 1 = F64.fin s m)
  | _ => true

/-- Sign and magnitude as an integer number of units. -/
def F64.signed (s : Bool) (m : Nat) : Int := if s then -(m : Int) else (m : Int)

/-- The comparison `a < b` (false when an operand is NaN; `-0 < +0` is false). -/
def F64.lt : F64 → F64 → Bool
  | F64.nan, _ => false
  | _, F64.nan => false
  | F64.inf s, F64.inf t => s && !t
  | F64.inf s, F64.fin _ _ => s
  | F64.fin _ _, F64.inf t => !t
  | F64.fin s m, F64.fin t n => decide (F64.signed s m < F64.signed t n)

/-- The comparison `a <= b`. -/
def F64.le (a b : F64) : Bool := !a.isNaN && !b.isNaN && !F64.lt b a

/-- The comparison `a == b`. -/
def F64.sameNumber (a b : F64) : Bool := F64.le a b && F64.le b a

/-- `std::min(a, b)`, that is `(b < a) ? b : a`. -/
def F64.min (a b : F64) : F64 := if F64.lt b a then b else a

/-- `std::max(a, b)`, that is `(a < b) ? b : a`. -/
def F64.max (a b : F64) : F64 := if F64.lt a b then b else a

/-- The double of sign of `x` and magnitude `|x| * 2^j` units, the number
`x * 2^(j-1074)`: the doubles `F64.grid j x` with `|x| < 2^53` form the binary grid
of spacing `2^(j-1074)` on which sums that stay below `2^53` steps are exact. -/
def F64.grid (j : Nat) (x : Int) : F64 := F64.fin (decide (x < 0)) (x.natAbs * 2 ^ j)

/-! ## main.cpp: the Aggregate, `counting_segment`, the partition

`f` (main.cpp 65-82) is a parameter `f : F64 → F64` of everything below. -/

/-- The triple `(min, max, integral)`: the globals `global_min`, `global_max`,
`global_integral` of `main`, and also the locals `local_min`, `local_max`,
`local_integral` of `counting_segment`. -/
structure Aggregate where
  min : F64
  max : F64
  integral : F64
deriving DecidableEq

/-- `double dx = (right - left) / steps;` (main.cpp 88). -/
def stepWidth (left right : F64) (steps : Int) : F64 :=
  F64.div (F64.sub right left) (F64.ofInt steps)

/-- `double x = left + i * dx;` (main.cpp 96). -/
def samplePoint (left dx : F64) (i : Nat) : F64 :=
  F64.add left (F64.mul (F64.ofInt i) dx)

/-- Body of the `for` loop of `counting_segment` (main.cpp 94-101) at index `i`. -/
def loopBody (f : F64 → F64) (left dx : F64) (acc : Aggregate) (i : Nat) : Aggregate :=
  let x := samplePoint left dx i
  let y := f x
  ⟨F64.min acc.min y, F64.max acc.max y, F64.add acc.integral (F64.mul y dx)⟩

/-- The local part of `counting_segment` (main.cpp 88-101): `dx`, the initial values
`f(left)`, `f(left)`, `0`, and the loop `for (int i = 0; i < steps; ++i)`. -/
def localTriple (f : F64 → F64) (left right : F64) (steps : Int) : Aggregate :=
  let dx := stepWidth left right steps
  (List.range steps.toNat).foldl (loopBody f left dx) ⟨f left, f left, F64.ofInt 0⟩

/-- The merge under `mut` (main.cpp 104-107). -/
def merge (g l : Aggregate) : Aggregate :=
  ⟨F64.min g.min l.min, F64.max g.max l.max, F64.add g.integral l.integral⟩

/-- `counting_segment` as a function of the globals it updates (the console output
and the timing are left out). -/
def counting_segment (f : F64 → F64) (left right : F64) (steps : Int) (g : Aggregate) :
    Aggregate :=
  merge g (localTriple f left right steps)

/-- `double segment_length = (B - A) / N;` -/
def segment_length (A B : F64) (N : Int) : F64 :=
  F64.div (F64.sub B A) (F64.ofInt N)

/-- The segments of the loop `for (int i = 0; i < N - 1; ++i)` of `main`
(main.cpp 33-41), as pairs `(left, right)`. -/
def pooledSegments (A B : F64) (N : Int) : List (F64 × F64) :=
  (List.range (N - 1).toNat).map fun (i : Nat) =>
    let left := F64.add A (F64.mul (F64.ofInt i) (segment_length A B N))
    let right := F64.add left (segment_length A B N)
    (left, right)

/-- The segment of the calling thread (main.cpp 44-45). -/
def lastSegment (A B : F64) (N : Int) : F64 × F64 :=
  (F64.add A (F64.mul (F64.ofInt (N - 1)) (segment_length A B N)), B)

/-- All `N` segments built by `main`, segment 0 first. -/
def segments (A B : F64) (N : Int) : List (F64 × F64) :=
  pooledSegments A B N ++ [lastSegment A B N]

/-- The globals at the start of `main`: `f(A)`, `f(A)`, `0` (main.cpp 24-26). -/
def mainInit (f : F64 → F64) (A : F64) : Aggregate :=
  ⟨f A, f A, F64.ofInt 0⟩

/-- The globals after `counting_segment` has run on the segments `segs`, merging in
that order. -/
def mergeAll (f : F64 → F64) (steps : Int) (g : Aggregate) (segs : List (F64 × F64)) :
    Aggregate :=
  segs.foldl (fun g s => counting_segment f s.1 s.2 steps g) g

/-- The globals of `main` once the segments `order` have been merged, in that order,
each with `STEPS / N` steps (C++ integer division). -/
def mainMerged (f : F64 → F64) (A : F64) (N STEPS : Int) (order : List (F64 × F64)) :
    Aggregate :=
  mergeAll f (Int.tdiv STEPS N) (mainInit f A) order

/-- The values of `f` that `counting_segment` compares on the segment `s`: the
initial `f(left)` and the samples `f(left + i * dx)`, `i < steps`. -/
def segmentValues (f : F64 → F64) (steps : Int) (s : F64 × F64) : List F64 :=
  f s.1 :: (List.range steps.toNat).map
    (fun i => f (samplePoint s.1 (stepWidth s.1 s.2 steps) i))

/-- The values of `f` that enter `global_min` and `global_max`: the initial `f(A)`
and the values compared on each segment. -/
def observedValues (f : F64 → F64) (A : F64) (steps : Int) (segs : List (F64 × F64)) :
    List F64 :=
  f A :: segs.flatMap (segmentValues f steps)

/-! ## main.cpp, pooled variant: the main thread against the workers -/

/-- The pooled `main` in flight: the pool (whose log holds the segments merged so far,
in merge order), the position of the main thread, and what it has printed as the
final result. -/
structure MainState where
  sys : Sys (F64 × F64)
  pc : Nat
  printed : Option Aggregate
deriving DecidableEq

/-- One step of the main thread of main.cpp: `N - 1` calls of `pool.enqueue` (the
future is dropped), then `counting_segment` on the last segment, then the output of
the globals, then the end of `main`, where `pool` is destroyed. -/
def mainStep (f : F64 → F64) (A B : F64) (N STEPS : Int) (m : MainState) : MainState :=
  if m.pc < (N - 1).toNat then
    ⟨m.sys.submit
      (F64.add A (F64.mul (F64.ofInt m.pc) (segment_length A B N)),
        F64.add (F64.add A (F64.mul (F64.ofInt m.pc) (segment_length A B N)))
          (segment_length A B N)),
      m.pc + 1, m.printed⟩
  else if m.pc = (N - 1).toNat then
    ⟨⟨m.sys.pool, m.sys.workers, m.sys.log ++ [lastSegment A B N]⟩, m.pc + 1, m.printed⟩
  else if m.pc = (N - 1).toNat + 1 then
    ⟨m.sys, m.pc + 1, some (mainMerged f A N STEPS m.sys.log)⟩
  else if m.pc = (N - 1).toNat + 2 then
    ⟨m.sys.shutdown, m.pc + 1, m.printed⟩
  else
    m

/-- Whose turn it is. -/
inductive Tick where
  | main
  | worker (w : Nat)
deriving DecidableEq

/-- The pooled `main` under a schedule, with a pool of `threads` workers. -/
def mainRun (f : F64 → F64) (A B : F64) (N STEPS : Int) (threads : Nat)
    (sched : List Tick) : MainState :=
  sched.foldl
    (fun m t =>
      match t with
      | Tick.main => mainStep f A B N STEPS m
      | Tick.worker w => ⟨m.sys.workerStep w, m.pc, m.printed⟩)
    ⟨Sys.construct (F64 × F64) threads, 0, none⟩

/-! ## Properties of the pool -/

/-! ### The critical section of `run`, case by case -/

theorem runLocked_stop {τ : Type} (p : ThreadPool τ) (h : p.stop = true) :
    p.runLocked = (Outcome.exited, p) := by
  simp [ThreadPool.runLocked, h]

theorem runLocked_nil {τ : Type} :
    (ThreadPool.runLocked ⟨false, ([] : List τ)⟩) = (Outcome.blocked, ⟨false, []⟩) := by
  simp [ThreadPool.runLocked]

theorem runLocked_cons {τ : Type} (t : τ) (rest : List τ) :
    (ThreadPool.runLocked ⟨false, t :: rest⟩) =
      (Outcome.dequeued (some t), ⟨false, rest⟩) := by
  simp [ThreadPool.runLocked]

/-- C1. When `stop` is set `enqueue` throws and there is no new pool state: in the
system the queue, the workers and the log stay as they were, whatever they are; when
`stop` is not set `enqueue` succeeds and the queue is the old queue with exactly that
task at the tail (flag untouched). -/
theorem enqueue_stop_or_append {τ : Type} (tasks : List τ) (task : τ) :
    (ThreadPool.enqueue ⟨true, tasks⟩ task = Except.error PoolClosed.enqueueOnStopped ∧
      ∀ (ws : List (Worker τ)) (log : List τ),
        Sys.submit task ⟨⟨true, tasks⟩, ws, log⟩ = ⟨⟨true, tasks⟩, ws, log⟩) ∧
    ThreadPool.enqueue ⟨false, tasks⟩ task = Except.ok ⟨false, tasks ++ [task]⟩ := by
  refine ⟨⟨by simp [ThreadPool.enqueue], ?_⟩, by simp [ThreadPool.enqueue]⟩
  intro ws log
  simp [Sys.submit, ThreadPool.enqueue]

/-- C8 as stated fails: in the state `stop = true`, `tasks = [7]` the wait is satisfied
and the worker exits, although the queue is not empty; the head `7` is not dequeued. -/
theorem runLocked_exits_with_nonempty_queue :
    ((true || !([7] : List Nat).isEmpty) = true) ∧
    (ThreadPool.runLocked ⟨true, [7]⟩ = (Outcome.exited, ⟨true, [7]⟩)) ∧
    ¬ (([7] : List Nat) = [] ∧ true = true) ∧
    (ThreadPool.runLocked ⟨true, [7]⟩ ≠ (Outcome.dequeued (some 7), ⟨true, []⟩)) := by
  decide

/-- C8 amended. In a state where the wait is satisfied the worker exits if and only if
shutdown is signalled (queue empty or not, and then the queue is left alone);
otherwise the queue is non-empty, the critical section removes exactly its head, and
the next step of that worker executes that task. -/
theorem runLocked_transition {τ : Type} (p : ThreadPool τ)
    (hw : (p.stop || !p.tasks.isEmpty) = true) :
    (p.runLocked.1 = Outcome.exited ↔ p.stop = true) ∧
    (p.stop = true → p.runLocked.2 = p) ∧
    (p.stop = false → ∃ t rest, p.tasks = t :: rest ∧
        p.runLocked = (Outcome.dequeued (some t), ⟨false, rest⟩) ∧
        ∀ (log : List τ),
          Sys.workerStep 0 (Sys.workerStep 0 ⟨p, [Worker.waiting], log⟩) =
            ⟨⟨false, rest⟩, [Worker.waiting], log ++ [t]⟩) := by
  obtain ⟨stop, tasks⟩ := p
  cases stop with
  | true => simp [ThreadPool.runLocked]
  | false =>
    cases tasks with
    | nil => simp at hw
    | cons t rest =>
      refine ⟨by simp [ThreadPool.runLocked], by simp, ?_⟩
      intro _
      refine ⟨t, rest, rfl, runLocked_cons t rest, ?_⟩
      intro log
      simp [Sys.workerStep, ThreadPool.runLocked]

theorem runLocked_transition_witness :
    ((ThreadPool.runLocked ⟨false, [3, 4]⟩).1 = Outcome.exited ↔ false = true) ∧
    (false = true → (ThreadPool.runLocked ⟨false, [3, 4]⟩).2 = ⟨false, [3, 4]⟩) ∧
    (false = false → ∃ t rest, [3, 4] = t :: rest ∧
        (ThreadPool.runLocked ⟨false, [3, 4]⟩) = (Outcome.dequeued (some t), ⟨false, rest⟩) ∧
        ∀ (log : List Nat),
          Sys.workerStep 0 (Sys.workerStep 0 ⟨⟨false, [3, 4]⟩, [Worker.waiting], log⟩) =
            ⟨⟨false, rest⟩, [Worker.waiting], log ++ [t]⟩) :=
  runLocked_transition ⟨false, [3, 4]⟩ (by decide)

/-! ### Single worker: FIFO -/

theorem fifoInv_construct {τ : Type} : FifoInv ([] : List τ) (Sys.construct τ 1) := by
  simp [FifoInv, Sys.construct]

theorem fifoInv_submit {τ : Type} {ts : List τ} {s : Sys τ} (h : FifoInv ts s) (t : τ) :
    FifoInv (ts ++ [t]) (s.submit t) := by
  obtain ⟨⟨stop, tasks⟩, ws, log⟩ := s
  obtain ⟨hs, h⟩ := h
  simp only at hs
  subst hs
  rcases h with ⟨hw, hl⟩ | ⟨u, hw, hl⟩
  · simp only at hw hl
    subst hw hl
    simp [FifoInv, Sys.submit, ThreadPool.enqueue]
  · simp only at hw hl
    subst hw hl
    simp [FifoInv, Sys.submit, ThreadPool.enqueue]

theorem fifoInv_step {τ : Type} {ts : List τ} {s : Sys τ} (h : FifoInv ts s) (w : Nat) :
    FifoInv ts (s.workerStep w) := by
  obtain ⟨⟨stop, tasks⟩, ws, log⟩ := s
  obtain ⟨hs, h⟩ := h
  simp only at hs
  subst hs
  rcases h with ⟨hw, hl⟩ | ⟨u, hw, hl⟩
  · simp only at hw hl
    subst hw hl
    cases w with
    | succ w => simp [FifoInv, Sys.workerStep]
    | zero =>
      cases tasks with
      | nil => simp [FifoInv, Sys.workerStep, ThreadPool.runLocked]
      | cons t rest => simp [FifoInv, Sys.workerStep, ThreadPool.runLocked]
  · simp only at hw hl
    subst hw hl
    cases w with
    | succ w => simp [FifoInv, Sys.workerStep]
    | zero => simp [FifoInv, Sys.workerStep]

theorem fifoInv_exec {τ : Type} (evs : List (Event τ)) (hns : Event.shutdown ∉ evs) :
    ∀ (ts : List τ) (s : Sys τ), FifoInv ts s → FifoInv (ts ++ submitted evs) (s.exec evs) := by
  induction evs with
  | nil => intro ts s h; simpa [Sys.exec, submitted] using h
  | cons e evs ih =>
    intro ts s h
    have hns2 : Event.shutdown ∉ evs := fun hm => hns (List.mem_cons_of_mem _ hm)
    cases e with
    | submit t =>
      have := ih hns2 (ts ++ [t]) (s.submit t) (fifoInv_submit h t)
      simpa [Sys.exec, Sys.fire, submitted] using this
    | step w =>
      have := ih hns2 ts (s.workerStep w) (fifoInv_step h w)
      simpa [Sys.exec, Sys.fire, submitted] using this
    | shutdown => exact absurd (List.mem_cons_self _ _) hns

theorem fifoInv_drain {τ : Type} (ts : List τ) (n : Nat) :
    ∀ s : Sys τ, FifoInv ts s →
      2 * s.pool.tasks.length + (inflight s.workers).length ≤ n →
      (s.exec (List.replicate n (Event.step 0))).log = ts ∧
      (s.exec (List.replicate n (Event.step 0))).pool.tasks = [] := by
  induction n with
  | zero =>
    intro s h hn
    obtain ⟨⟨stop, tasks⟩, ws, log⟩ := s
    obtain ⟨hs, h⟩ := h
    rcases h with ⟨hw, hl⟩ | ⟨u, hw, hl⟩
    · simp only at hw hl hn
      subst hw
      have ht : tasks = [] := by
        cases tasks with
        | nil => rfl
        | cons a l => simp [inflight] at hn
      subst ht
      simpa [Sys.exec] using hl
    · simp only at hw hl hn
      subst hw
      simp [inflight] at hn
  | succ n ih =>
    intro s h hn
    have hstep := fifoInv_step h 0
    have hlt : 2 * (s.workerStep 0).pool.tasks.length +
        (inflight (s.workerStep 0).workers).length ≤ n := by
      obtain ⟨⟨stop, tasks⟩, ws, log⟩ := s
      obtain ⟨hs, h⟩ := h
      simp only at hs
      subst hs
      rcases h with ⟨hw, hl⟩ | ⟨u, hw, hl⟩
      · simp only at hw hl hn
        subst hw
        cases tasks with
        | nil => simp [Sys.workerStep, ThreadPool.runLocked, inflight]
        | cons a l =>
          simp [Sys.workerStep, ThreadPool.runLocked, inflight] at hn ⊢
          omega
      · simp only at hw hl hn
        subst hw
        simp [Sys.workerStep, inflight] at hn ⊢
        omega
    have := ih (s.workerStep 0) hstep hlt
    simpa [Sys.exec, List.replicate_succ, Sys.fire] using this

/-- C3. One worker, pool freshly constructed, never shut down: whatever the
interleaving `evs` of submissions and worker steps, what has been executed so far is
an initial part of the submissions in submission order, and once the worker has been
given enough further steps (two per submitted task suffice) the executed sequence is
exactly the submitted sequence `t1..tk` and the queue is empty. -/
theorem fifo_single_worker {τ : Type} (evs : List (Event τ))
    (hns : Event.shutdown ∉ evs) (n : Nat) (hn : 2 * (submitted evs).length ≤ n) :
    (∃ rest, ((Sys.construct τ 1).exec evs).log ++ rest = submitted evs) ∧
    ((Sys.construct τ 1).exec (evs ++ List.replicate n (Event.step 0))).log = submitted evs ∧
    ((Sys.construct τ 1).exec (evs ++ List.replicate n (Event.step 0))).pool.tasks = [] := by
  have hinv := fifoInv_exec evs hns [] (Sys.construct τ 1) fifoInv_construct
  simp only [List.nil_append] at hinv
  refine ⟨?_, ?_⟩
  · rcases hinv.2 with ⟨_, hl⟩ | ⟨u, _, hl⟩
    · exact ⟨_, hl⟩
    · exact ⟨_, hl⟩
  · have hmeasure : 2 * ((Sys.construct τ 1).exec evs).pool.tasks.length +
        (inflight ((Sys.construct τ 1).exec evs).workers).length ≤ n := by
      rcases hinv.2 with ⟨hw, hl⟩ | ⟨u, hw, hl⟩
      · have := congrArg List.length hl
        simp [hw, inflight] at this ⊢
        omega
      · have := congrArg List.length hl
        simp [hw, inflight] at this ⊢
        omega
    have := fifoInv_drain (submitted evs) n _ hinv hmeasure
    simpa [Sys.exec, List.foldl_append] using this

theorem fifo_single_worker_witness :
    (∃ rest, ((Sys.construct Nat 1).exec
        [Event.submit 1, Event.step 0, Event.submit 2, Event.submit 3]).log ++ rest =
      submitted [Event.submit 1, Event.step 0, Event.submit 2, Event.submit 3]) ∧
    ((Sys.construct Nat 1).exec
        ([Event.submit 1, Event.step 0, Event.submit 2, Event.submit 3] ++
          List.replicate 6 (Event.step 0))).log =
      submitted [Event.submit 1, Event.step 0, Event.submit 2, Event.submit 3] ∧
    ((Sys.construct Nat 1).exec
        ([Event.submit 1, Event.step 0, Event.submit 2, Event.submit 3] ++
          List.replicate 6 (Event.step 0))).pool.tasks = [] :=
  fifo_single_worker [Event.submit 1, Event.step 0, Event.submit 2, Event.submit 3]
    (by decide) 6 (by decide)

/-! ### After `stop` has been set -/

theorem inflight_set_of_idle {τ : Type} (v : Worker τ) (hv : inflight [v] = []) :
    ∀ (ws : List (Worker τ)) (w : Nat) (u : Worker τ),
      ws[w]? = some u → inflight [u] = [] → inflight (ws.set w v) = inflight ws := by
  intro ws
  induction ws with
  | nil => intro w u h; simp at h
  | cons a l ih =>
    intro w u h hu
    cases w with
    | zero =>
      simp at h
      subst h
      rcases v with _ | (_ | t) | _ <;> rcases a with _ | (_ | b) | _ <;>
        simp_all [inflight]
    | succ w =>
      simp at h
      have := ih w u h hu
      rcases a with _ | (_ | b) | _ <;> simp [inflight, this]

theorem inflight_set_of_running {τ : Type} (t : τ) :
    ∀ (ws : List (Worker τ)) (w : Nat),
      ws[w]? = some (Worker.running (some t)) →
      (t :: inflight (ws.set w Worker.waiting)).Perm (inflight ws) := by
  intro ws
  induction ws with
  | nil => intro w h; simp at h
  | cons a l ih =>
    intro w h
    cases w with
    | zero =>
      simp at h
      subst h
      simp [inflight]
    | succ w =>
      simp at h
      have := ih w h
      rcases a with _ | (_ | b) | _
      · simpa [inflight] using this
      · simpa [inflight] using this
      · simp only [List.set_cons_succ, inflight]
        exact (List.Perm.swap b t _).trans (List.Perm.cons b this)
      · simpa [inflight] using this

/-- One event in a stopped pool: the pool is untouched, and the log grows at most by
a task that a worker already held, which that worker then no longer holds. -/
theorem fire_of_stop {τ : Type} (s : Sys τ) (hs : s.pool.stop = true) (e : Event τ) :
    (s.fire e).pool = s.pool ∧
    ∃ x, (s.fire e).log = s.log ++ x ∧
      (x ++ inflight (s.fire e).workers).Perm (inflight s.workers) := by
  obtain ⟨⟨stop, tasks⟩, ws, log⟩ := s
  simp only at hs
  subst hs
  cases e with
  | submit t => exact ⟨by simp [Sys.fire, Sys.submit, ThreadPool.enqueue], [], by
      simp [Sys.fire, Sys.submit, ThreadPool.enqueue]⟩
  | shutdown => exact ⟨by simp [Sys.fire, Sys.shutdown], [], by simp [Sys.fire, Sys.shutdown]⟩
  | step w =>
    cases hg : ws[w]? with
    | none => exact ⟨by simp [Sys.fire, Sys.workerStep, hg], [], by
        simp [Sys.fire, Sys.workerStep, hg]⟩
    | some u =>
      rcases u with _ | (_ | t) | _
      · refine ⟨by simp [Sys.fire, Sys.workerStep, hg, ThreadPool.runLocked], [], ?_⟩
        have := inflight_set_of_idle Worker.exited (by simp [inflight]) ws w _ hg
          (by simp [inflight])
        simp [Sys.fire, Sys.workerStep, hg, ThreadPool.runLocked, this]
      · refine ⟨by simp [Sys.fire, Sys.workerStep, hg], [], ?_⟩
        have := inflight_set_of_idle Worker.waiting (by simp [inflight]) ws w _ hg
          (by simp [inflight])
        simp [Sys.fire, Sys.workerStep, hg, this]
      · refine ⟨by simp [Sys.fire, Sys.workerStep, hg], [t], ?_⟩
        have := inflight_set_of_running t ws w hg
        simpa [Sys.fire, Sys.workerStep, hg] using this
      · exact ⟨by simp [Sys.fire, Sys.workerStep, hg], [], by
          simp [Sys.fire, Sys.workerStep, hg]⟩

/-- C4 as stated fails: after `submit 5`, a step of the worker (which dequeues `5`),
`submit 1`, `submit 2` and shutdown, the flag is set, the queue is `[1, 2]` and the
worker still holds `5`; its next step executes `5`: a worker step executes a task in
a state reached after the flag was set. -/
theorem held_task_runs_after_stop :
    (Sys.construct Nat 1).exec
        [Event.submit 5, Event.step 0, Event.submit 1, Event.submit 2, Event.shutdown] =
      ⟨⟨true, [1, 2]⟩, [Worker.running (some 5)], []⟩ ∧
    Sys.workerStep 0 ⟨⟨true, [1, 2]⟩, [Worker.running (some 5)], []⟩ =
      ⟨⟨true, [1, 2]⟩, [Worker.waiting], [5]⟩ := by
  decide

/-- C4 amended. From any state in which `stop` is set: a worker entering the critical
section returns without dequeuing (queue and log as before); and along every schedule
the pool keeps its flag and its queue, so every task queued at that moment stays
queued and is never executed; the only tasks executed from then on are tasks that
workers had already taken out of the queue before (each at most once): when no
worker holds a task, nothing at all is executed any more. -/
theorem shutdown_drops_queued_work {τ : Type} (s : Sys τ) (hs : s.pool.stop = true)
    (evs : List (Event τ)) :
    (∀ w, s.workers[w]? = some Worker.waiting →
        s.workerStep w = ⟨s.pool, s.workers.set w Worker.exited, s.log⟩) ∧
    (s.exec evs).pool = s.pool ∧
    (∃ extra, (s.exec evs).log = s.log ++ extra ∧ extra.Subperm (inflight s.workers)) ∧
    (inflight s.workers = [] → (s.exec evs).log = s.log) := by
  have key : ∀ (evs : List (Event τ)) (s : Sys τ), s.pool.stop = true →
      (s.exec evs).pool = s.pool ∧
      ∃ extra, (s.exec evs).log = s.log ++ extra ∧ extra.Subperm (inflight s.workers) := by
    intro evs
    induction evs with
    | nil => intro s _; exact ⟨rfl, [], by simp [Sys.exec], List.nil_subperm⟩
    | cons e evs ih =>
      intro s hs
      obtain ⟨hp, x, hx, hperm⟩ := fire_of_stop s hs e
      obtain ⟨hp2, extra, hextra, hsub⟩ := ih (s.fire e) (by rw [hp]; exact hs)
      refine ⟨by simpa [Sys.exec, hp] using hp2, x ++ extra, ?_, ?_⟩
      · have : (s.exec (e :: evs)).log = ((s.fire e).exec evs).log := by simp [Sys.exec]
        rw [this, hextra, hx, List.append_assoc]
      · exact ((List.subperm_append_left x).mpr hsub).trans hperm.subperm
  obtain ⟨hp, extra, hextra, hsub⟩ := key evs s hs
  refine ⟨?_, hp, ⟨extra, hextra, hsub⟩, ?_⟩
  · intro w hw
    simp [Sys.workerStep, hw, runLocked_stop s.pool hs]
  · intro hnil
    rw [hnil] at hsub
    have : extra = [] := List.subperm_nil.mp hsub
    simpa [this] using hextra

theorem shutdown_drops_queued_work_witness :
    (∀ w, [Worker.waiting, Worker.running (some 5)][w]? = some Worker.waiting →
        Sys.workerStep w ⟨⟨true, [1, 2]⟩, [Worker.waiting, Worker.running (some 5)], [0]⟩ =
          ⟨⟨true, [1, 2]⟩, [Worker.waiting, Worker.running (some 5)].set w Worker.exited, [0]⟩) ∧
    (Sys.exec ⟨⟨true, [1, 2]⟩, [Worker.waiting, Worker.running (some 5)], [0]⟩
        [Event.step 0, Event.step 1, Event.submit 9, Event.step 1]).pool = ⟨true, [1, 2]⟩ ∧
    (∃ extra, (Sys.exec ⟨⟨true, [1, 2]⟩, [Worker.waiting, Worker.running (some 5)], [0]⟩
        [Event.step 0, Event.step 1, Event.submit 9, Event.step 1]).log = [0] ++ extra ∧
      extra.Subperm (inflight [Worker.waiting, Worker.running (some 5)])) ∧
    (inflight [Worker.waiting, Worker.running (some 5)] = [] →
      (Sys.exec ⟨⟨true, [1, 2]⟩, [Worker.waiting, Worker.running (some 5)], [0]⟩
        [Event.step 0, Event.step 1, Event.submit 9, Event.step 1]).log = [0]) :=
  shutdown_drops_queued_work
    ⟨⟨true, [1, 2]⟩, [Worker.waiting, Worker.running (some 5)], [0]⟩ rfl
    [Event.step 0, Event.step 1, Event.submit 9, Event.step 1]

/-! ## Properties of `double` comparison, `std::min` and `std::max` -/

theorem F64.lt_irrefl (a : F64) : F64.lt a a = false := by
  rcases a with _ | s | ⟨s, m⟩
  · simp [F64.lt]
  · simp [F64.lt]
  · simp [F64.lt]

theorem F64.lt_asymm {a b : F64} (h : F64.lt a b = true) : F64.lt b a = false := by
  rcases a with _ | s | ⟨s, m⟩ <;> rcases b with _ | t | ⟨t, n⟩ <;>
    simp_all [F64.lt]
  omega

theorem F64.lt_of_lt_of_le {a b c : F64} (h1 : F64.lt a b = true) (h2 : F64.le b c = true) :
    F64.lt a c = true := by
  rcases a with _ | s | ⟨s, m⟩ <;> rcases b with _ | t | ⟨t, n⟩ <;>
    rcases c with _ | u | ⟨u, k⟩ <;>
    simp_all [F64.lt, F64.le, F64.isNaN]
  omega

theorem F64.le_refl {a : F64} (h : a.isNaN = false) : F64.le a a = true := by
  simp [F64.le, h, F64.lt_irrefl]

theorem F64.le_trans {a b c : F64} (h1 : F64.le a b = true) (h2 : F64.le b c = true) :
    F64.le a c = true := by
  rcases a with _ | s | ⟨s, m⟩ <;> rcases b with _ | t | ⟨t, n⟩ <;>
    rcases c with _ | u | ⟨u, k⟩ <;>
    simp_all [F64.lt, F64.le, F64.isNaN] <;>
    first
      | omega
      | (cases s <;> cases t <;> simp_all)

theorem F64.isNaN_of_le {a b : F64} (h : F64.le a b = true) :
    a.isNaN = false ∧ b.isNaN = false := by
  simp [F64.le] at h
  exact ⟨h.1.1, h.1.2⟩

/-- Two doubles that are `<=` each other are identical, or are both zeros. -/
theorem F64.eq_or_zero_of_le_of_le {a b : F64} (h1 : F64.le a b = true)
    (h2 : F64.le b a = true) :
    a = b ∨ (a.isZero = true ∧ b.isZero = true) := by
  rcases a with _ | s | ⟨s, m⟩ <;> rcases b with _ | t | ⟨t, n⟩ <;>
    simp_all [F64.lt, F64.le, F64.isNaN]
  · cases s <;> cases t <;> simp_all
  · have hmn : F64.signed s m = F64.signed t n := by omega
    cases s <;> cases t <;> simp only [F64.signed, Bool.false_eq_true, if_false, if_true] at hmn
    · left; exact ⟨rfl, by omega⟩
    · right
      have hm : m = 0 := by omega
      have hn : n = 0 := by omega
      subst hm hn
      simp [F64.isZero]
    · right
      have hm : m = 0 := by omega
      have hn : n = 0 := by omega
      subst hm hn
      simp [F64.isZero]
    · left; exact ⟨rfl, by omega⟩

theorem F64.min_eq_or (a b : F64) : F64.min a b = a ∨ F64.min a b = b := by
  unfold F64.min; split <;> simp

theorem F64.max_eq_or (a b : F64) : F64.max a b = a ∨ F64.max a b = b := by
  unfold F64.max; split <;> simp

theorem F64.min_nan_right (a : F64) : F64.min a F64.nan = a := by
  rcases a with _ | s | ⟨s, m⟩ <;> simp [F64.min, F64.lt]

theorem F64.max_nan_right (a : F64) : F64.max a F64.nan = a := by
  rcases a with _ | s | ⟨s, m⟩ <;> simp [F64.max, F64.lt]

theorem F64.min_nan_left (b : F64) : F64.min F64.nan b = F64.nan := by
  rcases b with _ | s | ⟨s, m⟩ <;> simp [F64.min, F64.lt]

theorem F64.max_nan_left (b : F64) : F64.max F64.nan b = F64.nan := by
  rcases b with _ | s | ⟨s, m⟩ <;> simp [F64.max, F64.lt]

theorem F64.min_le {a b : F64} (ha : a.isNaN = false) (hb : b.isNaN = false) :
    F64.le (F64.min a b) a = true ∧ F64.le (F64.min a b) b = true := by
  unfold F64.min
  split
  · rename_i h
    exact ⟨by simp [F64.le, ha, hb, F64.lt_asymm h], F64.le_refl hb⟩
  · rename_i h
    exact ⟨F64.le_refl ha, by simpa [F64.le, ha, hb] using h⟩

theorem F64.le_max {a b : F64} (ha : a.isNaN = false) (hb : b.isNaN = false) :
    F64.le a (F64.max a b) = true ∧ F64.le b (F64.max a b) = true := by
  unfold F64.max
  split
  · rename_i h
    exact ⟨by simp [F64.le, ha, hb, F64.lt_asymm h], F64.le_refl hb⟩
  · rename_i h
    exact ⟨F64.le_refl ha, by simpa [F64.le, ha, hb] using h⟩

/-! ## Exact cases of the rounding -/

theorem F64.scale_pos : 0 < F64.scale := by
  unfold F64.scale
  positivity

theorem F64.scale_eq : F64.scale = 2 ^ 1074 := rfl

theorem F64.excess_le : ∀ (fuel n j : Nat), n / 2 ^ j < F64.full → F64.excess fuel n ≤ j := by
  intro fuel
  induction fuel with
  | zero => intro n j _; simp [F64.excess]
  | succ fuel ih =>
    intro n j h
    unfold F64.excess
    split
    · exact Nat.zero_le _
    · rename_i hn
      cases j with
      | zero => simp at h; exact absurd h hn
      | succ j =>
        have : n / 2 / 2 ^ j < F64.full := by
          rw [Nat.div_div_eq_div_mul, ← Nat.pow_succ']
          exact h
        have := ih (n / 2) j this
        omega

theorem F64.lt_huge_of_lt_full {k j : Nat} (hk : k < F64.full) (hj : j ≤ 2045) :
    k * 2 ^ j < F64.huge := by
  have h1 : k * 2 ^ j < F64.full * 2 ^ j :=
    Nat.mul_lt_mul_of_pos_right hk (Nat.two_pow_pos _)
  have h2 : F64.full * 2 ^ j ≤ F64.huge := by
    have he : 2098 = 53 + j + (2045 - j) := by omega
    unfold F64.full F64.huge
    rw [he, Nat.pow_add, Nat.pow_add]
    exact Nat.le_mul_of_pos_right _ (Nat.two_pow_pos _)
  omega

/-- A magnitude of at most 53 significant bits below the overflow bound is not
changed by the rounding. -/
theorem F64.round_exact (s : Bool) (k j c : Nat) (hk : k < F64.full) (hj : j ≤ 2045)
    (hc : 0 < c) :
    F64.round s (k * 2 ^ j * c) c = F64.fin s (k * 2 ^ j) := by
  have hdiv : k * 2 ^ j * c / c = k * 2 ^ j := Nat.mul_div_cancel _ hc
  have hsh : F64.excess (k * 2 ^ j) (k * 2 ^ j) ≤ j := by
    apply F64.excess_le
    rw [Nat.mul_div_cancel _ (Nat.two_pow_pos _)]
    exact hk
  have hhuge := F64.lt_huge_of_lt_full hk hj
  unfold F64.round
  simp only [hdiv]
  generalize F64.excess (k * 2 ^ j) (k * 2 ^ j) = sh at hsh
  obtain ⟨e, rfl⟩ := Nat.exists_eq_add_of_le hsh
  have hD : 0 < c * 2 ^ sh := Nat.mul_pos hc (Nat.two_pow_pos _)
  have ha : k * 2 ^ (sh + e) * c = k * 2 ^ e * (c * 2 ^ sh) := by
    rw [Nat.pow_add]; ring
  have hq : k * 2 ^ e * 2 ^ sh = k * 2 ^ (sh + e) := by
    rw [Nat.pow_add]; ring
  rw [ha, Nat.mul_div_cancel _ hD, Nat.mul_mod_left]
  simp only [Nat.mul_zero, hD, if_true, hq]
  rw [if_neg (by omega)]

theorem F64.round_zero (s : Bool) (d : Nat) (hd : 0 < d) : F64.round s 0 d = F64.fin s 0 := by
  have := F64.round_exact s 0 0 d (by decide) (by decide) hd
  simpa using this

theorem F64.ofInt_eq_grid (i : Int) (h : i.natAbs < F64.full) :
    F64.ofInt i = F64.grid 1074 i := by
  have := F64.round_exact (decide (i < 0)) i.natAbs 1074 1 h (by decide) (by decide)
  simp only [Nat.mul_one] at this
  simp only [F64.ofInt, F64.grid, F64.scale]
  exact this

/-- Every grid point of at most 53 significant bits is a double. -/
theorem F64.wellFormed_grid (j : Nat) (x : Int) (hx : x.natAbs < F64.full) (hj : j ≤ 2045) :
    (F64.grid j x).wellFormed = true := by
  have := F64.round_exact (decide (x < 0)) x.natAbs j 1 hx hj (by decide)
  simp only [Nat.mul_one] at this
  simp only [F64.grid, F64.wellFormed, this, decide_True]

theorem F64.grid_zero (j : Nat) : F64.grid j 0 = F64.fin false 0 := by
  simp [F64.grid]

theorem F64.ofInt_zero : F64.ofInt 0 = F64.fin false 0 := by
  rw [F64.ofInt_eq_grid 0 (by decide), F64.grid_zero]

/-! ## Arithmetic on a binary grid -/

theorem F64.add_fin_same (s : Bool) (m n j : Nat) (h : m + n < F64.full) (hj : j ≤ 2045) :
    F64.add (F64.fin s (m * 2 ^ j)) (F64.fin s (n * 2 ^ j)) = F64.fin s ((m + n) * 2 ^ j) := by
  have := F64.round_exact s (m + n) j 1 h hj (by decide)
  simp only [Nat.mul_one] at this
  simp only [F64.add, if_true, ← Nat.add_mul, this]

theorem F64.add_fin_gt (s t : Bool) (m n j : Nat) (hst : s ≠ t) (hlt : n < m)
    (h : m - n < F64.full) (hj : j ≤ 2045) :
    F64.add (F64.fin s (m * 2 ^ j)) (F64.fin t (n * 2 ^ j)) = F64.fin s ((m - n) * 2 ^ j) := by
  have := F64.round_exact s (m - n) j 1 h hj (by decide)
  simp only [Nat.mul_one] at this
  have hP : 0 < 2 ^ j := Nat.two_pow_pos _
  have hlt2 : n * 2 ^ j < m * 2 ^ j := Nat.mul_lt_mul_of_pos_right hlt hP
  simp only [F64.add, if_neg hst, if_pos hlt2, ← Nat.sub_mul, this]

theorem F64.add_fin_lt (s t : Bool) (m n j : Nat) (hst : s ≠ t) (hlt : m < n)
    (h : n - m < F64.full) (hj : j ≤ 2045) :
    F64.add (F64.fin s (m * 2 ^ j)) (F64.fin t (n * 2 ^ j)) = F64.fin t ((n - m) * 2 ^ j) := by
  have := F64.round_exact t (n - m) j 1 h hj (by decide)
  simp only [Nat.mul_one] at this
  have hP : 0 < 2 ^ j := Nat.two_pow_pos _
  have hlt2 : m * 2 ^ j < n * 2 ^ j := Nat.mul_lt_mul_of_pos_right hlt hP
  have hnot : ¬ n * 2 ^ j < m * 2 ^ j := by omega
  simp only [F64.add, if_neg hst, if_neg hnot, if_pos hlt2, ← Nat.sub_mul, this]

theorem F64.add_fin_eq (s t : Bool) (m j : Nat) (hst : s ≠ t) :
    F64.add (F64.fin s (m * 2 ^ j)) (F64.fin t (m * 2 ^ j)) = F64.fin false 0 := by
  simp [F64.add, hst]

/-- On the grid of spacing `2^(j-1074)`, adding `k` steps of sign `t` to the grid
point `x` gives the grid point `x ± k`, when that is below `2^53` steps. -/
theorem F64.add_grid (j : Nat) (x : Int) (t : Bool) (k : Nat)
    (h : (x + F64.signed t k).natAbs < F64.full) (hj : j ≤ 2045) :
    F64.add (F64.grid j x) (F64.fin t (k * 2 ^ j)) = F64.grid j (x + F64.signed t k) := by
  unfold F64.grid
  by_cases hx : x < 0
  · cases t with
    | true =>
      simp only [F64.signed, if_true] at h ⊢
      rw [decide_eq_true hx, F64.add_fin_same _ _ _ _ (by omega) hj]
      have h1 : decide (x + -(k : Int) < 0) = true := decide_eq_true (by omega)
      have h2 : (x + -(k : Int)).natAbs = x.natAbs + k := by omega
      rw [h1, h2]
    | false =>
      simp only [F64.signed, Bool.false_eq_true, if_false] at h ⊢
      rw [decide_eq_true hx]
      rcases Nat.lt_trichotomy k x.natAbs with hk | hk | hk
      · rw [F64.add_fin_gt _ _ _ _ _ (by decide) hk (by omega) hj]
        have h1 : decide (x + (k : Int) < 0) = true := decide_eq_true (by omega)
        have h2 : (x + (k : Int)).natAbs = x.natAbs - k := by omega
        rw [h1, h2]
      · subst hk
        rw [F64.add_fin_eq _ _ _ _ (by decide)]
        have h1 : x + (x.natAbs : Int) = 0 := by omega
        rw [h1]
        simp
      · rw [F64.add_fin_lt _ _ _ _ _ (by decide) hk (by omega) hj]
        have h1 : decide (x + (k : Int) < 0) = false := decide_eq_false (by omega)
        have h2 : (x + (k : Int)).natAbs = k - x.natAbs := by omega
        rw [h1, h2]
  · cases t with
    | false =>
      simp only [F64.signed, Bool.false_eq_true, if_false] at h ⊢
      rw [decide_eq_false hx, F64.add_fin_same _ _ _ _ (by omega) hj]
      have h1 : decide (x + (k : Int) < 0) = false := decide_eq_false (by omega)
      have h2 : (x + (k : Int)).natAbs = x.natAbs + k := by omega
      rw [h1, h2]
    | true =>
      simp only [F64.signed, if_true] at h ⊢
      rw [decide_eq_false hx]
      rcases Nat.lt_trichotomy k x.natAbs with hk | hk | hk
      · rw [F64.add_fin_gt _ _ _ _ _ (by decide) hk (by omega) hj]
        have h1 : decide (x + -(k : Int) < 0) = false := decide_eq_false (by omega)
        have h2 : (x + -(k : Int)).natAbs = x.natAbs - k := by omega
        rw [h1, h2]
      · subst hk
        rw [F64.add_fin_eq _ _ _ _ (by decide)]
        have h1 : x + -(x.natAbs : Int) = 0 := by omega
        rw [h1]
        simp
      · rw [F64.add_fin_lt _ _ _ _ _ (by decide) hk (by omega) hj]
        have h1 : decide (x + -(k : Int) < 0) = true := decide_eq_true (by omega)
        have h2 : (x + -(k : Int)).natAbs = k - x.natAbs := by omega
        rw [h1, h2]

theorem F64.signed_decide_natAbs (y : Int) : F64.signed (decide (y < 0)) y.natAbs = y := by
  by_cases hy : y < 0
  · simp only [F64.signed, decide_eq_true hy, if_true]; omega
  · simp only [F64.signed, decide_eq_false hy]; simp; omega

theorem F64.grid_add (j : Nat) (x y : Int) (h : (x + y).natAbs < F64.full) (hj : j ≤ 2045) :
    F64.add (F64.grid j x) (F64.grid j y) = F64.grid j (x + y) := by
  have := F64.add_grid j x (decide (y < 0)) y.natAbs
    (by rw [F64.signed_decide_natAbs]; exact h) hj
  rw [F64.signed_decide_natAbs] at this
  exact this

theorem F64.grid_sub (j : Nat) (x y : Int) (h : (x - y).natAbs < F64.full) (hj : j ≤ 2045) :
    F64.sub (F64.grid j x) (F64.grid j y) = F64.grid j (x - y) := by
  have hs : F64.signed (!decide (y < 0)) y.natAbs = -y := by
    by_cases hy : y < 0
    · simp only [F64.signed, decide_eq_true hy]; simp; omega
    · simp only [F64.signed, decide_eq_false hy]; simp; omega
  have := F64.add_grid j x (!decide (y < 0)) y.natAbs (by rw [hs]; exact h) hj
  rw [hs] at this
  simpa [F64.sub, F64.grid, F64.neg, Int.sub_eq_add_neg] using this

/-- The product of an `int` and a grid point, as sign and magnitude. -/
theorem F64.mul_ofInt_grid (j : Nat) (i y : Int) (hi : i.natAbs < F64.full)
    (h : i.natAbs * y.natAbs < F64.full) (hj : j ≤ 2045) :
    F64.mul (F64.ofInt i) (F64.grid j y) =
      F64.fin (xor (decide (i < 0)) (decide (y < 0))) (i.natAbs * y.natAbs * 2 ^ j) := by
  rw [F64.ofInt_eq_grid i hi]
  have := F64.round_exact (xor (decide (i < 0)) (decide (y < 0))) (i.natAbs * y.natAbs) j
    F64.scale h hj F64.scale_pos
  have ha : i.natAbs * 2 ^ 1074 * (y.natAbs * 2 ^ j) =
      i.natAbs * y.natAbs * 2 ^ j * F64.scale := by
    rw [F64.scale_eq]; ring
  simp only [F64.grid, F64.mul, ha, this]

theorem F64.signed_xor (i y : Int) :
    F64.signed (xor (decide (i < 0)) (decide (y < 0))) (i.natAbs * y.natAbs) = i * y := by
  have h : ((i.natAbs * y.natAbs : Nat) : Int) = |i| * |y| := by
    push_cast; simp [Int.natCast_natAbs]
  by_cases hi : i < 0 <;> by_cases hy : y < 0 <;>
    simp only [F64.signed, decide_eq_true, decide_eq_false, hi, hy, h, Bool.xor_true,
      Bool.xor_false, Bool.not_true, Bool.not_false, if_true, not_false_eq_true] <;>
    simp [abs_of_neg, abs_of_nonneg, hi, hy, not_lt.mp, *] 

/-- On the grid: `x + i * y`, the left bound or sample point of index `i`. -/
theorem F64.grid_add_mul (j : Nat) (x i y : Int) (hi : i.natAbs < F64.full)
    (hiy : i.natAbs * y.natAbs < F64.full) (h : (x + i * y).natAbs < F64.full)
    (hj : j ≤ 2045) :
    F64.add (F64.grid j x) (F64.mul (F64.ofInt i) (F64.grid j y)) = F64.grid j (x + i * y) := by
  rw [F64.mul_ofInt_grid j i y hi hiy hj]
  have := F64.add_grid j x (xor (decide (i < 0)) (decide (y < 0))) (i.natAbs * y.natAbs)
    (by rw [F64.signed_xor]; exact h) hj
  rw [F64.signed_xor] at this
  exact this

/-- On the grid: division by a positive `int` that divides the number of steps. -/
theorem F64.grid_div (j : Nat) (q n : Int) (hn : 0 < n) (hnf : n.natAbs < F64.full)
    (hq : q.natAbs < F64.full) (hj : j ≤ 2045) :
    F64.div (F64.grid j (n * q)) (F64.ofInt n) = F64.grid j q := by
  rw [F64.ofInt_eq_grid n hnf]
  have hn0 : n.natAbs * 2 ^ 1074 ≠ 0 := by
    have : 0 < n.natAbs := by omega
    positivity
  have hsn : decide (n < 0) = false := decide_eq_false (by omega)
  have hsq : decide (n * q < 0) = decide (q < 0) := by
    by_cases hq0 : q < 0
    · rw [decide_eq_true hq0, decide_eq_true (Int.mul_neg_of_pos_of_neg hn hq0)]
    · rw [decide_eq_false hq0, decide_eq_false (by
        have := Int.mul_nonneg (le_of_lt hn) (not_lt.mp hq0); omega)]
  have := F64.round_exact (decide (q < 0)) q.natAbs j (n.natAbs * 2 ^ 1074) hq hj
    (Nat.pos_of_ne_zero hn0)
  have ha : (n * q).natAbs * 2 ^ j * F64.scale = q.natAbs * 2 ^ j * (n.natAbs * 2 ^ 1074) := by
    rw [Int.natAbs_mul, F64.scale_eq]; ring
  simp only [F64.grid, F64.div, if_neg hn0, hsn, hsq, Bool.xor_false, ha, this]

/-! ## Folds of `std::min`, `std::max` and of the merge -/

theorem F64.isNaN_min {a b : F64} (ha : a.isNaN = false) (hb : b.isNaN = false) :
    (F64.min a b).isNaN = false := by
  rcases F64.min_eq_or a b with h | h <;> rw [h] <;> assumption

theorem F64.isNaN_max {a b : F64} (ha : a.isNaN = false) (hb : b.isNaN = false) :
    (F64.max a b).isNaN = false := by
  rcases F64.max_eq_or a b with h | h <;> rw [h] <;> assumption

/-- The fold of `std::min` over values without NaN is one of them and `<=` all. -/
theorem foldl_min_spec : ∀ (xs : List F64) (a : F64), a.isNaN = false →
    (∀ x, x ∈ xs → x.isNaN = false) →
    xs.foldl F64.min a ∈ a :: xs ∧
      ∀ y, y ∈ a :: xs → F64.le (xs.foldl F64.min a) y = true := by
  intro xs
  induction xs with
  | nil =>
    intro a ha _
    refine ⟨by simp, ?_⟩
    intro y hy
    simp at hy
    subst hy
    exact F64.le_refl ha
  | cons b t ih =>
    intro a ha hxs
    have hb : b.isNaN = false := hxs b (List.mem_cons_self _ _)
    have ht : ∀ x, x ∈ t → x.isNaN = false := fun x hx => hxs x (List.mem_cons_of_mem _ hx)
    obtain ⟨hmem, hle⟩ := ih (F64.min a b) (F64.isNaN_min ha hb) ht
    have hmin := F64.min_le ha hb
    simp only [List.foldl_cons]
    refine ⟨?_, ?_⟩
    · rcases List.mem_cons.mp hmem with h | h
      · rw [h]
        rcases F64.min_eq_or a b with h2 | h2 <;> rw [h2] <;> simp
      · exact List.mem_cons_of_mem _ (List.mem_cons_of_mem _ h)
    · intro y hy
      have h0 := hle (F64.min a b) (List.mem_cons_self _ _)
      rcases List.mem_cons.mp hy with h | h
      · subst h; exact F64.le_trans h0 hmin.1
      · rcases List.mem_cons.mp h with h | h
        · subst h; exact F64.le_trans h0 hmin.2
        · exact hle y (List.mem_cons_of_mem _ h)

/-- The fold of `std::max` over values without NaN is one of them and `>=` all. -/
theorem foldl_max_spec : ∀ (xs : List F64) (a : F64), a.isNaN = false →
    (∀ x, x ∈ xs → x.isNaN = false) →
    xs.foldl F64.max a ∈ a :: xs ∧
      ∀ y, y ∈ a :: xs → F64.le y (xs.foldl F64.max a) = true := by
  intro xs
  induction xs with
  | nil =>
    intro a ha _
    refine ⟨by simp, ?_⟩
    intro y hy
    simp at hy
    subst hy
    exact F64.le_refl ha
  | cons b t ih =>
    intro a ha hxs
    have hb : b.isNaN = false := hxs b (List.mem_cons_self _ _)
    have ht : ∀ x, x ∈ t → x.isNaN = false := fun x hx => hxs x (List.mem_cons_of_mem _ hx)
    obtain ⟨hmem, hle⟩ := ih (F64.max a b) (F64.isNaN_max ha hb) ht
    have hmax := F64.le_max ha hb
    simp only [List.foldl_cons]
    refine ⟨?_, ?_⟩
    · rcases List.mem_cons.mp hmem with h | h
      · rw [h]
        rcases F64.max_eq_or a b with h2 | h2 <;> rw [h2] <;> simp
      · exact List.mem_cons_of_mem _ (List.mem_cons_of_mem _ h)
    · intro y hy
      have h0 := hle (F64.max a b) (List.mem_cons_self _ _)
      rcases List.mem_cons.mp hy with h | h
      · subst h; exact F64.le_trans hmax.1 h0
      · rcases List.mem_cons.mp h with h | h
        · subst h; exact F64.le_trans hmax.2 h0
        · exact hle y (List.mem_cons_of_mem _ h)

theorem foldl_min_nan (xs : List F64) : xs.foldl F64.min F64.nan = F64.nan := by
  induction xs with
  | nil => rfl
  | cons b t ih => simpa [F64.min_nan_left] using ih

theorem foldl_max_nan (xs : List F64) : xs.foldl F64.max F64.nan = F64.nan := by
  induction xs with
  | nil => rfl
  | cons b t ih => simpa [F64.max_nan_left] using ih

theorem foldl_min_filter (xs : List F64) : ∀ a : F64,
    xs.foldl F64.min a = (xs.filter fun x => !x.isNaN).foldl F64.min a := by
  induction xs with
  | nil => intro a; rfl
  | cons b t ih =>
    intro a
    rcases b with _ | s | ⟨s, m⟩
    · simpa [F64.isNaN, F64.min_nan_right] using ih a
    · simpa [F64.isNaN] using ih _
    · simpa [F64.isNaN] using ih _

theorem foldl_max_filter (xs : List F64) : ∀ a : F64,
    xs.foldl F64.max a = (xs.filter fun x => !x.isNaN).foldl F64.max a := by
  induction xs with
  | nil => intro a; rfl
  | cons b t ih =>
    intro a
    rcases b with _ | s | ⟨s, m⟩
    · simpa [F64.isNaN, F64.max_nan_right] using ih a
    · simpa [F64.isNaN] using ih _
    · simpa [F64.isNaN] using ih _

/-- The fold of `std::min` does not depend on the order, up to the sign of a zero. -/
theorem foldl_min_perm {xs ys : List F64} (h : xs.Perm ys) (a : F64) :
    xs.foldl F64.min a = ys.foldl F64.min a ∨
      ((xs.foldl F64.min a).isZero = true ∧ (ys.foldl F64.min a).isZero = true) := by
  cases ha : a.isNaN with
  | true =>
    have : a = F64.nan := by
      rcases a with _ | s | ⟨s, m⟩ <;> simp_all [F64.isNaN]
    subst this
    left
    rw [foldl_min_nan, foldl_min_nan]
  | false =>
    rw [foldl_min_filter xs, foldl_min_filter ys]
    have hp := h.filter (fun x => !x.isNaN)
    have hx := foldl_min_spec (xs.filter fun x => !x.isNaN) a ha
      (fun x hx => by simpa using (List.mem_filter.mp hx).2)
    have hy := foldl_min_spec (ys.filter fun x => !x.isNaN) a ha
      (fun x hx => by simpa using (List.mem_filter.mp hx).2)
    have hmx : (ys.filter fun x => !x.isNaN).foldl F64.min a ∈
        a :: (xs.filter fun x => !x.isNaN) := by
      rcases List.mem_cons.mp hy.1 with h1 | h1
      · rw [h1]; simp
      · exact List.mem_cons_of_mem _ (hp.mem_iff.mpr h1)
    have hmy : (xs.filter fun x => !x.isNaN).foldl F64.min a ∈
        a :: (ys.filter fun x => !x.isNaN) := by
      rcases List.mem_cons.mp hx.1 with h1 | h1
      · rw [h1]; simp
      · exact List.mem_cons_of_mem _ (hp.mem_iff.mp h1)
    exact F64.eq_or_zero_of_le_of_le (hx.2 _ hmx) (hy.2 _ hmy)

/-- The fold of `std::max` does not depend on the order, up to the sign of a zero. -/
theorem foldl_max_perm {xs ys : List F64} (h : xs.Perm ys) (a : F64) :
    xs.foldl F64.max a = ys.foldl F64.max a ∨
      ((xs.foldl F64.max a).isZero = true ∧ (ys.foldl F64.max a).isZero = true) := by
  cases ha : a.isNaN with
  | true =>
    have : a = F64.nan := by
      rcases a with _ | s | ⟨s, m⟩ <;> simp_all [F64.isNaN]
    subst this
    left
    rw [foldl_max_nan, foldl_max_nan]
  | false =>
    rw [foldl_max_filter xs, foldl_max_filter ys]
    have hp := h.filter (fun x => !x.isNaN)
    have hx := foldl_max_spec (xs.filter fun x => !x.isNaN) a ha
      (fun x hx => by simpa using (List.mem_filter.mp hx).2)
    have hy := foldl_max_spec (ys.filter fun x => !x.isNaN) a ha
      (fun x hx => by simpa using (List.mem_filter.mp hx).2)
    have hmx : (ys.filter fun x => !x.isNaN).foldl F64.max a ∈
        a :: (xs.filter fun x => !x.isNaN) := by
      rcases List.mem_cons.mp hy.1 with h1 | h1
      · rw [h1]; simp
      · exact List.mem_cons_of_mem _ (hp.mem_iff.mpr h1)
    have hmy : (xs.filter fun x => !x.isNaN).foldl F64.max a ∈
        a :: (ys.filter fun x => !x.isNaN) := by
      rcases List.mem_cons.mp hx.1 with h1 | h1
      · rw [h1]; simp
      · exact List.mem_cons_of_mem _ (hp.mem_iff.mp h1)
    exact F64.eq_or_zero_of_le_of_le (hy.2 _ hmy) (hx.2 _ hmx)

theorem foldl_merge_proj (ls : List Aggregate) : ∀ g : Aggregate,
    (ls.foldl merge g).min = (ls.map Aggregate.min).foldl F64.min g.min ∧
    (ls.foldl merge g).max = (ls.map Aggregate.max).foldl F64.max g.max ∧
    (ls.foldl merge g).integral = (ls.map Aggregate.integral).foldl F64.add g.integral := by
  induction ls with
  | nil => intro g; simp
  | cons a t ih =>
    intro g
    simpa [merge] using ih (merge g a)

theorem foldl_loopBody_proj (f : F64 → F64) (left dx : F64) (xs : List Nat) :
    ∀ acc : Aggregate,
    (xs.foldl (loopBody f left dx) acc).min =
        (xs.map fun i => f (samplePoint left dx i)).foldl F64.min acc.min ∧
    (xs.foldl (loopBody f left dx) acc).max =
        (xs.map fun i => f (samplePoint left dx i)).foldl F64.max acc.max ∧
    (xs.foldl (loopBody f left dx) acc).integral =
        (xs.map fun i => F64.mul (f (samplePoint left dx i)) dx).foldl F64.add
          acc.integral := by
  induction xs with
  | nil => intro acc; simp
  | cons a t ih =>
    intro acc
    simpa [loopBody] using ih (loopBody f left dx acc a)

/-- On a grid, the fold of `+=` over grid points whose magnitudes sum to less than
`2^53` steps is the exact sum. -/
theorem foldl_add_grid (j : Nat) (hj : j ≤ 2045) : ∀ (xs : List Int) (c : Int),
    c.natAbs + (xs.map Int.natAbs).sum < F64.full →
    (xs.map (F64.grid j)).foldl F64.add (F64.grid j c) = F64.grid j (c + xs.sum) := by
  intro xs
  induction xs with
  | nil => intro c _; simp
  | cons x t ih =>
    intro c h
    simp only [List.map_cons, List.sum_cons] at h
    have hcx : (c + x).natAbs < F64.full := by omega
    simp only [List.map_cons, List.foldl_cons, List.sum_cons]
    rw [F64.grid_add j c x hcx hj, ih (c + x) (by omega), add_assoc]

/-! ## The merge and the order of completion -/

set_option maxRecDepth 100000 in
/-- C2 as stated fails. The local integrals `1e20`, `1`, `-1e20` merged in this order
into the Aggregate `(1, 1, 0)` give integral `0` (the `1` is lost in `1e20 + 1`),
merged in the order `1e20`, `-1e20`, `1` they give integral `1`; and the local minima
`+0`, `-0` give the minimum `+0` in this order and `-0` in the other. -/
theorem merge_order_dependent :
    List.Perm
        [(⟨F64.ofInt 1, F64.ofInt 1, F64.ofInt 100000000000000000000⟩ : Aggregate),
          ⟨F64.ofInt 1, F64.ofInt 1, F64.ofInt 1⟩,
          ⟨F64.ofInt 1, F64.ofInt 1, F64.ofInt (-100000000000000000000)⟩]
        [⟨F64.ofInt 1, F64.ofInt 1, F64.ofInt 100000000000000000000⟩,
          ⟨F64.ofInt 1, F64.ofInt 1, F64.ofInt (-100000000000000000000)⟩,
          ⟨F64.ofInt 1, F64.ofInt 1, F64.ofInt 1⟩] ∧
    (List.foldl merge ⟨F64.ofInt 1, F64.ofInt 1, F64.ofInt 0⟩
        [⟨F64.ofInt 1, F64.ofInt 1, F64.ofInt 100000000000000000000⟩,
          ⟨F64.ofInt 1, F64.ofInt 1, F64.ofInt 1⟩,
          ⟨F64.ofInt 1, F64.ofInt 1, F64.ofInt (-100000000000000000000)⟩]).integral =
      F64.ofInt 0 ∧
    (List.foldl merge ⟨F64.ofInt 1, F64.ofInt 1, F64.ofInt 0⟩
        [⟨F64.ofInt 1, F64.ofInt 1, F64.ofInt 100000000000000000000⟩,
          ⟨F64.ofInt 1, F64.ofInt 1, F64.ofInt (-100000000000000000000)⟩,
          ⟨F64.ofInt 1, F64.ofInt 1, F64.ofInt 1⟩]).integral =
      F64.ofInt 1 ∧
    F64.ofInt 0 ≠ F64.ofInt 1 ∧
    (List.foldl merge ⟨F64.ofInt 1, F64.ofInt 1, F64.ofInt 0⟩
        [⟨F64.fin false 0, F64.ofInt 1, F64.ofInt 0⟩,
          ⟨F64.fin true 0, F64.ofInt 1, F64.ofInt 0⟩]).min = F64.fin false 0 ∧
    (List.foldl merge ⟨F64.ofInt 1, F64.ofInt 1, F64.ofInt 0⟩
        [⟨F64.fin true 0, F64.ofInt 1, F64.ofInt 0⟩,
          ⟨F64.fin false 0, F64.ofInt 1, F64.ofInt 0⟩]).min = F64.fin true 0 := by
  refine ⟨List.Perm.cons _ (List.Perm.swap _ _ _), ?_, ?_, ?_, ?_, ?_⟩ <;> decide!

/-- C2 amended. Folding the merge of `counting_segment` over a list of local triples
and over any permutation of it, from the same Aggregate: the final minima are the
same double, or both are zeros (of possibly different sign); likewise the final
maxima; and the final integrals are the same double whenever the integrals lie on a
common binary grid and their magnitudes sum to less than `2^53` grid steps, so that
no addition rounds. (Without that the integral depends on the order.) -/
theorem merge_order_independent (g : Aggregate) (ls ls2 : List Aggregate)
    (h : ls.Perm ls2) :
    ((ls.foldl merge g).min = (ls2.foldl merge g).min ∨
      ((ls.foldl merge g).min.isZero = true ∧ (ls2.foldl merge g).min.isZero = true)) ∧
    ((ls.foldl merge g).max = (ls2.foldl merge g).max ∨
      ((ls.foldl merge g).max.isZero = true ∧ (ls2.foldl merge g).max.isZero = true)) ∧
    (∀ (j : Nat) (c : Int) (x : Aggregate → Int), j ≤ 2045 →
      g.integral = F64.grid j c →
      (∀ l, l ∈ ls → l.integral = F64.grid j (x l)) →
      c.natAbs + (ls.map fun l => (x l).natAbs).sum < F64.full →
      (ls.foldl merge g).integral = (ls2.foldl merge g).integral) := by
  obtain ⟨hmin1, hmax1, hint1⟩ := foldl_merge_proj ls g
  obtain ⟨hmin2, hmax2, hint2⟩ := foldl_merge_proj ls2 g
  rw [hmin1, hmin2, hmax1, hmax2, hint1, hint2]
  refine ⟨foldl_min_perm (h.map _) _, foldl_max_perm (h.map _) _, ?_⟩
  intro j c x hj hg hls hsum
  have hmap : ∀ ks : List Aggregate, (∀ l, l ∈ ks → l.integral = F64.grid j (x l)) →
      ks.map Aggregate.integral = (ks.map x).map (F64.grid j) := by
    intro ks hks
    rw [List.map_map]
    exact List.map_congr_left (fun l hl => by simpa using hks l hl)
  have hls2 : ∀ l, l ∈ ls2 → l.integral = F64.grid j (x l) :=
    fun l hl => hls l (h.mem_iff.mpr hl)
  have hsum1 : c.natAbs + ((ls.map x).map Int.natAbs).sum < F64.full := by
    simpa [List.map_map, Function.comp_def] using hsum
  have hsum2 : c.natAbs + ((ls2.map x).map Int.natAbs).sum < F64.full := by
    have : ((ls2.map x).map Int.natAbs).sum = ((ls.map x).map Int.natAbs).sum :=
      (((h.map x).map Int.natAbs).sum_eq).symm
    omega
  rw [hg, hmap ls hls, hmap ls2 hls2, foldl_add_grid j hj _ _ hsum1,
    foldl_add_grid j hj _ _ hsum2, (h.map x).sum_eq]

set_option maxRecDepth 100000 in
theorem merge_order_independent_witness :
    List.Perm
        [(⟨F64.ofInt 3, F64.ofInt 5, F64.ofRatio false 1 2⟩ : Aggregate),
          ⟨F64.ofInt (-1), F64.ofInt 0, F64.ofInt 7⟩]
        [⟨F64.ofInt (-1), F64.ofInt 0, F64.ofInt 7⟩,
          ⟨F64.ofInt 3, F64.ofInt 5, F64.ofRatio false 1 2⟩] ∧
    (List.foldl merge ⟨F64.ofInt 4, F64.ofInt 4, F64.ofInt 0⟩
        [⟨F64.ofInt 3, F64.ofInt 5, F64.ofRatio false 1 2⟩,
          ⟨F64.ofInt (-1), F64.ofInt 0, F64.ofInt 7⟩]).integral =
      (List.foldl merge ⟨F64.ofInt 4, F64.ofInt 4, F64.ofInt 0⟩
        [⟨F64.ofInt (-1), F64.ofInt 0, F64.ofInt 7⟩,
          ⟨F64.ofInt 3, F64.ofInt 5, F64.ofRatio false 1 2⟩]).integral :=
  ⟨List.Perm.swap _ _ _,
    (merge_order_independent ⟨F64.ofInt 4, F64.ofInt 4, F64.ofInt 0⟩ _ _
      (List.Perm.swap _ _ _)).2.2 1073 0
      (fun l => if l.integral = F64.ofInt 7 then 14 else 1)
      (by decide) (by decide!) (by decide!) (by decide!)⟩

/-! ## The partition built by `main` -/

theorem pooledSegments_length (A B : F64) (N : Int) :
    (pooledSegments A B N).length = (N - 1).toNat := by
  unfold pooledSegments
  rw [List.length_map, List.length_range]

/-- Segment `i` of `main`, as the source computes it. -/
theorem segments_getElem (A B : F64) (N : Int) (hN : 1 ≤ N) (i : Nat) (hi : i < N.toNat) :
    (segments A B N)[i]? =
      some (F64.add A (F64.mul (F64.ofInt i) (segment_length A B N)),
        if i + 1 = N.toNat then B
        else F64.add (F64.add A (F64.mul (F64.ofInt i) (segment_length A B N)))
          (segment_length A B N)) := by
  by_cases h : i + 1 = N.toNat
  · have hlen : (pooledSegments A B N).length = i := by
      rw [pooledSegments_length]; omega
    have hcast : (N - 1 : Int) = (i : Int) := by omega
    rw [segments, List.getElem?_append_right (by omega), hlen]
    simp [lastSegment, hcast, h]
  · have hlt : i < (N - 1).toNat := by omega
    have hlen : i < (pooledSegments A B N).length := by
      rw [pooledSegments_length]; exact hlt
    rw [segments, List.getElem?_append_left hlen]
    unfold pooledSegments
    rw [List.getElem?_map, List.getElem?_range hlt]
    simp [h]

/-- Adding `0 * d` for a finite `d` gives back a double other than `-0`. -/
theorem F64.add_zero_mul (x d : F64) (hx : x.wellFormed = true) (hx0 : x ≠ F64.fin true 0)
    (hd : d.isFinite = true) :
    F64.add x (F64.mul (F64.ofInt 0) d) = x := by
  rcases d with _ | t | ⟨t, n⟩
  · simp [F64.isFinite] at hd
  · simp [F64.isFinite] at hd
  · have hmul : F64.mul (F64.ofInt 0) (F64.fin t n) = F64.fin t 0 := by
      rw [F64.ofInt_zero]
      simp only [F64.mul, Nat.zero_mul, Bool.false_bne]
      exact F64.round_zero t _ F64.scale_pos
    rw [hmul]
    rcases x with _ | s | ⟨s, m⟩
    · rfl
    · rfl
    · have hw : F64.round s m 1 = F64.fin s m := by simpa [F64.wellFormed] using hx
      by_cases hst : s = t
      · subst hst
        simp [F64.add, hw]
      · by_cases hm : 0 < m
        · simp [F64.add, hst, hm, hw]
        · have hm0 : m = 0 := by omega
          subst hm0
          have hs : s = false := by
            cases s
            · rfl
            · exact absurd rfl hx0
          subst hs
          simp [F64.add, hst]

/-- For `f(x) = x` on `[i, i + 1)` with one step, `i` an integer below `2^53`, the
local integral is `i`. -/
theorem localTriple_id_int (i : Int) (hi : i.natAbs + 1 < F64.full) :
    (localTriple (fun x => x) (F64.ofInt i) (F64.ofInt (i + 1)) 1).integral = F64.ofInt i := by
  have hi0 : i.natAbs < F64.full := by omega
  have hi1 : (i + 1).natAbs < F64.full := by omega
  have h1 : (1 : Int).natAbs < F64.full := by decide
  have hdx : stepWidth (F64.ofInt i) (F64.ofInt (i + 1)) 1 = F64.grid 1074 1 := by
    unfold stepWidth
    rw [F64.ofInt_eq_grid i hi0, F64.ofInt_eq_grid (i + 1) hi1,
      F64.grid_sub 1074 _ _ (by rw [add_sub_cancel_left]; exact h1) (by decide),
      add_sub_cancel_left]
    have := F64.grid_div 1074 1 1 (by decide) h1 h1 (by decide)
    simpa using this
  have hx : samplePoint (F64.ofInt i) (F64.grid 1074 1) 0 = F64.ofInt i := by
    unfold samplePoint
    rw [F64.ofInt_eq_grid i hi0]
    have := F64.grid_add_mul 1074 i 0 1 (by decide) (by decide) (by simpa using hi0)
      (by decide)
    simpa using this
  have hmul : F64.add (F64.ofInt 0) (F64.mul (F64.ofInt i) (F64.grid 1074 1)) =
      F64.ofInt i := by
    rw [F64.ofInt_eq_grid 0 (by decide)]
    have := F64.grid_add_mul 1074 0 i 1 hi0 (by simpa using hi0) (by simpa using hi0)
      (by decide)
    rw [this, F64.ofInt_eq_grid i hi0]
    simp
  have hr : List.range (1 : Int).toNat = [0] := by decide
  simp only [localTriple, hdx, hr, List.foldl_cons, List.foldl_nil, loopBody, hx, hmul]

/-- The local min and max of a segment whose compared values are not NaN. -/
theorem localTriple_spec (f : F64 → F64) (steps : Int) (s : F64 × F64)
    (hnan : ∀ v, v ∈ segmentValues f steps s → v.isNaN = false) :
    ((localTriple f s.1 s.2 steps).min ∈ segmentValues f steps s ∧
      ∀ v, v ∈ segmentValues f steps s →
        F64.le (localTriple f s.1 s.2 steps).min v = true) ∧
    ((localTriple f s.1 s.2 steps).max ∈ segmentValues f steps s ∧
      ∀ v, v ∈ segmentValues f steps s →
        F64.le v (localTriple f s.1 s.2 steps).max = true) := by
  obtain ⟨hmin, hmax, _⟩ := foldl_loopBody_proj f s.1 (stepWidth s.1 s.2 steps)
    (List.range steps.toNat) ⟨f s.1, f s.1, F64.ofInt 0⟩
  have ha : (f s.1).isNaN = false := hnan _ (List.mem_cons_self _ _)
  have hxs : ∀ x, x ∈ (List.range steps.toNat).map
      (fun i => f (samplePoint s.1 (stepWidth s.1 s.2 steps) i)) →
      x.isNaN = false := fun x hx => hnan x (List.mem_cons_of_mem _ hx)
  have h1 := foldl_min_spec _ _ ha hxs
  have h2 := foldl_max_spec _ _ ha hxs
  simp only [localTriple, segmentValues]
  rw [hmin, hmax]
  exact ⟨h1, h2⟩

set_option maxRecDepth 100000 in
/-- C9 as stated fails. For `f(x) = 1/x`, `left = -0`, `right = 1`, one step: the
initial value `f(left)` is `-inf`, but sample 0 is `left + 0*dx = +0` with
`f(+0) = +inf`, so `local_min = -inf` is not the minimum of the samples. And when
`f(left)` is NaN, `local_min` is NaN, which is not `<=` the sample `1`. -/
theorem local_min_not_a_sample :
    samplePoint (F64.fin true 0) (stepWidth (F64.fin true 0) (F64.ofInt 1) 1) 0 =
      F64.fin false 0 ∧
    List.map (fun i => F64.div (F64.ofInt 1)
        (samplePoint (F64.fin true 0) (stepWidth (F64.fin true 0) (F64.ofInt 1) 1) i))
      (List.range (1 : Int).toNat) = [F64.inf false] ∧
    (localTriple (fun x => F64.div (F64.ofInt 1) x) (F64.fin true 0) (F64.ofInt 1) 1).min =
      F64.inf true ∧
    (localTriple (fun x => if x = F64.ofInt 0 then F64.nan else x) (F64.ofInt 0)
      (F64.ofInt 2) 2).min = F64.nan ∧
    List.map (fun i => (fun x => if x = F64.ofInt 0 then F64.nan else x)
        (samplePoint (F64.ofInt 0) (stepWidth (F64.ofInt 0) (F64.ofInt 2) 2) i))
      (List.range (2 : Int).toNat) = [F64.nan, F64.ofInt 1] ∧
    F64.le F64.nan (F64.ofInt 1) = false := by
  decide!

/-- C9 amended. In double arithmetic, for `steps >= 1` and
`dx = (right - left) / steps`: `counting_segment` merges into the globals the local
triple with `std::min`, `std::max` and `+=`; the local integral is the sum, added in
index order from `0`, of the products `f(left + i*dx) * dx`, `i < steps`; when
neither `f(left)` nor a sample `f(left + i*dx)` is NaN, the local min is one of these
values and `<=` each of them, and the local max is one of them and `>=` each of
them; `f(left)` is sample 0 when `left` is a double other than `-0` and `dx` is
finite; and for `f(x) = x` on `[i, i+1)` with one step and an integer `i` below
`2^53`, the local integral is `i`. -/
theorem counting_segment_rectangle_rule (f : F64 → F64) (left right : F64) (steps : Int)
    (h : 1 ≤ steps) (g : Aggregate) :
    counting_segment f left right steps g =
        ⟨F64.min g.min (localTriple f left right steps).min,
          F64.max g.max (localTriple f left right steps).max,
          F64.add g.integral (localTriple f left right steps).integral⟩ ∧
    (localTriple f left right steps).integral =
        ((List.range steps.toNat).map fun i =>
          F64.mul (f (samplePoint left (stepWidth left right steps) i))
            (stepWidth left right steps)).foldl F64.add (F64.ofInt 0) ∧
    ((∀ v, v ∈ segmentValues f steps (left, right) → v.isNaN = false) →
      ((localTriple f left right steps).min ∈ segmentValues f steps (left, right) ∧
        ∀ v, v ∈ segmentValues f steps (left, right) →
          F64.le (localTriple f left right steps).min v = true) ∧
      ((localTriple f left right steps).max ∈ segmentValues f steps (left, right) ∧
        ∀ v, v ∈ segmentValues f steps (left, right) →
          F64.le v (localTriple f left right steps).max = true)) ∧
    (left.wellFormed = true → left ≠ F64.fin true 0 →
      (stepWidth left right steps).isFinite = true →
      samplePoint left (stepWidth left right steps) 0 = left ∧
      f left ∈ (List.range steps.toNat).map
        (fun i => f (samplePoint left (stepWidth left right steps) i))) ∧
    (∀ i : Int, i.natAbs + 1 < F64.full →
      (localTriple (fun x => x) (F64.ofInt i) (F64.ofInt (i + 1)) 1).integral =
        F64.ofInt i) := by
  obtain ⟨hmin, hmax, hint⟩ := foldl_loopBody_proj f left (stepWidth left right steps)
    (List.range steps.toNat) ⟨f left, f left, F64.ofInt 0⟩
  refine ⟨?_, ?_, ?_, ?_, localTriple_id_int⟩
  · simp only [counting_segment, merge]
  · simp only [localTriple]
    rw [hint]
  · intro hnan
    exact localTriple_spec f steps (left, right) hnan
  · intro hw h0 hfin
    have hs : samplePoint left (stepWidth left right steps) 0 = left := by
      have := F64.add_zero_mul left _ hw h0 hfin
      simpa [samplePoint] using this
    refine ⟨hs, ?_⟩
    apply List.mem_map.mpr
    exact ⟨0, List.mem_range.mpr (by omega), by rw [hs]⟩

set_option maxRecDepth 100000 in
theorem counting_segment_rectangle_rule_witness :
    (localTriple (fun x => F64.mul x x) (F64.ofInt 0) (F64.ofInt 1) 2).integral =
      ((List.range (2 : Int).toNat).map fun i =>
        F64.mul ((fun x => F64.mul x x)
            (samplePoint (F64.ofInt 0) (stepWidth (F64.ofInt 0) (F64.ofInt 1) 2) i))
          (stepWidth (F64.ofInt 0) (F64.ofInt 1) 2)).foldl F64.add (F64.ofInt 0) :=
  (counting_segment_rectangle_rule (fun x => F64.mul x x) (F64.ofInt 0) (F64.ofInt 1) 2
    (by decide) ⟨F64.ofInt 0, F64.ofInt 0, F64.ofInt 0⟩).2.1

/-! ## The globals after all segments have been merged -/

theorem mergeAll_eq_foldl_merge (f : F64 → F64) (steps : Int) (g : Aggregate)
    (segs : List (F64 × F64)) :
    mergeAll f steps g segs =
      (segs.map fun s => localTriple f s.1 s.2 steps).foldl merge g := by
  simp [mergeAll, counting_segment, List.foldl_map]

theorem mainMerged_proj (f : F64 → F64) (A : F64) (N STEPS : Int)
    (order : List (F64 × F64)) :
    (mainMerged f A N STEPS order).min =
      (order.map fun s => (localTriple f s.1 s.2 (Int.tdiv STEPS N)).min).foldl F64.min
        (f A) ∧
    (mainMerged f A N STEPS order).max =
      (order.map fun s => (localTriple f s.1 s.2 (Int.tdiv STEPS N)).max).foldl F64.max
        (f A) ∧
    (mainMerged f A N STEPS order).integral =
      (order.map fun s => (localTriple f s.1 s.2 (Int.tdiv STEPS N)).integral).foldl F64.add
        (F64.ofInt 0) := by
  have := foldl_merge_proj (order.map fun s => localTriple f s.1 s.2 (Int.tdiv STEPS N))
    (mainInit f A)
  simp only [mainMerged, mergeAll_eq_foldl_merge]
  simp only [List.map_map, Function.comp_def, mainInit] at this
  exact this

set_option maxRecDepth 100000 in
/-- C10 as stated fails. For `f(x) = 1/x`, `A = -0`, `B = 4`, `N = 4`, `STEPS = 4`:
`global_min` is `f(A) = -inf`, but segment 0 starts at `A + 0*len = +0`, the sampled
points are `+0, 1, 2, 3` and the least sampled value is `f(3)`: the initialisation
adds a value that is not a sample. And for an `f` that is NaN everywhere,
`global_min <= global_max` is false. -/
theorem global_min_not_a_sample :
    (mainMerged (fun x => F64.div (F64.ofInt 1) x) (F64.fin true 0) 4 4
      (segments (F64.fin true 0) (F64.ofInt 4) 4)).min = F64.inf true ∧
    (segments (F64.fin true 0) (F64.ofInt 4) 4).flatMap
        (fun s => (List.range (Int.tdiv 4 4).toNat).map
          (fun i => F64.div (F64.ofInt 1)
            (samplePoint s.1 (stepWidth s.1 s.2 (Int.tdiv 4 4)) i))) =
      [F64.inf false, F64.ofInt 1, F64.ofRatio false 1 2, F64.ofRatio false 1 3] ∧
    F64.le
      (mainMerged (fun _ => F64.nan) (F64.ofInt 0) 4 4
        (segments (F64.ofInt 0) (F64.ofInt 4) 4)).min
      (mainMerged (fun _ => F64.nan) (F64.ofInt 0) 4 4
        (segments (F64.ofInt 0) (F64.ofInt 4) 4)).max = false := by
  decide!

/-- C10 amended. In double arithmetic, for `N >= 1` and `STEPS / N >= 1`, once the
`N` segments have been merged, in any order, and when none of the values `f(A)`,
`f(left)` of a segment and `f(left + i*dx)` of a sample is NaN: `global_min` is one
of these values and `<=` each of them, `global_max` is one of them and `>=` each of
them, and `global_min <= global_max`. The initial `f(A)` is sample 0 of segment 0,
and so adds no value, when `A` is a double other than `-0` and the segment length
and the step of segment 0 are finite. -/
theorem global_min_max_over_samples (f : F64 → F64) (A B : F64) (N STEPS : Int)
    (hN : 1 ≤ N) (hS : 1 ≤ Int.tdiv STEPS N) (order : List (F64 × F64))
    (hperm : order.Perm (segments A B N))
    (hnan : ∀ v, v ∈ observedValues f A (Int.tdiv STEPS N) (segments A B N) →
      v.isNaN = false) :
    ((mainMerged f A N STEPS order).min ∈
        observedValues f A (Int.tdiv STEPS N) (segments A B N) ∧
      ∀ v, v ∈ observedValues f A (Int.tdiv STEPS N) (segments A B N) →
        F64.le (mainMerged f A N STEPS order).min v = true) ∧
    ((mainMerged f A N STEPS order).max ∈
        observedValues f A (Int.tdiv STEPS N) (segments A B N) ∧
      ∀ v, v ∈ observedValues f A (Int.tdiv STEPS N) (segments A B N) →
        F64.le v (mainMerged f A N STEPS order).max = true) ∧
    F64.le (mainMerged f A N STEPS order).min (mainMerged f A N STEPS order).max = true ∧
    (A.wellFormed = true → A ≠ F64.fin true 0 →
      (segment_length A B N).isFinite = true →
      ∀ s, (segments A B N)[0]? = some s →
        (stepWidth s.1 s.2 (Int.tdiv STEPS N)).isFinite = true →
        s.1 = A ∧ samplePoint s.1 (stepWidth s.1 s.2 (Int.tdiv STEPS N)) 0 = A ∧
        f A ∈ (List.range (Int.tdiv STEPS N).toNat).map
          (fun i => f (samplePoint s.1 (stepWidth s.1 s.2 (Int.tdiv STEPS N)) i))) := by
  obtain ⟨hmin, hmax, _⟩ := mainMerged_proj f A N STEPS order
  have hA : (f A).isNaN = false := hnan _ (List.mem_cons_self _ _)
  have hseg : ∀ s, s ∈ order → ∀ v, v ∈ segmentValues f (Int.tdiv STEPS N) s →
      v ∈ observedValues f A (Int.tdiv STEPS N) (segments A B N) := by
    intro s hs v hv
    exact List.mem_cons_of_mem _ (List.mem_flatMap.mpr ⟨s, hperm.mem_iff.mp hs, hv⟩)
  have hloc : ∀ s, s ∈ order → _ := fun s hs =>
    localTriple_spec f (Int.tdiv STEPS N) s (fun v hv => hnan v (hseg s hs v hv))
  have hmins : ∀ x, x ∈ (order.map fun s => (localTriple f s.1 s.2 (Int.tdiv STEPS N)).min) →
      x.isNaN = false := by
    intro x hx
    obtain ⟨s, hs, rfl⟩ := List.mem_map.mp hx
    exact hnan _ (hseg s hs _ (hloc s hs).1.1)
  have hmaxs : ∀ x, x ∈ (order.map fun s => (localTriple f s.1 s.2 (Int.tdiv STEPS N)).max) →
      x.isNaN = false := by
    intro x hx
    obtain ⟨s, hs, rfl⟩ := List.mem_map.mp hx
    exact hnan _ (hseg s hs _ (hloc s hs).2.1)
  obtain ⟨hmem1, hle1⟩ := foldl_min_spec _ _ hA hmins
  obtain ⟨hmem2, hle2⟩ := foldl_max_spec _ _ hA hmaxs
  rw [← hmin] at hmem1 hle1
  rw [← hmax] at hmem2 hle2
  refine ⟨⟨?_, ?_⟩, ⟨?_, ?_⟩, ?_, ?_⟩
  · rcases List.mem_cons.mp hmem1 with h | h
    · rw [h]; exact List.mem_cons_self _ _
    · obtain ⟨s, hs, hs2⟩ := List.mem_map.mp h
      rw [← hs2]
      exact hseg s hs _ (hloc s hs).1.1
  · intro v hv
    rcases List.mem_cons.mp hv with h | h
    · rw [h]; exact hle1 _ (List.mem_cons_self _ _)
    · obtain ⟨s, hs, hvs⟩ := List.mem_flatMap.mp h
      have hso : s ∈ order := hperm.mem_iff.mpr hs
      exact F64.le_trans
        (hle1 _ (List.mem_cons_of_mem _ (List.mem_map_of_mem _ hso)))
        ((hloc s hso).1.2 v hvs)
  · rcases List.mem_cons.mp hmem2 with h | h
    · rw [h]; exact List.mem_cons_self _ _
    · obtain ⟨s, hs, hs2⟩ := List.mem_map.mp h
      rw [← hs2]
      exact hseg s hs _ (hloc s hs).2.1
  · intro v hv
    rcases List.mem_cons.mp hv with h | h
    · rw [h]; exact hle2 _ (List.mem_cons_self _ _)
    · obtain ⟨s, hs, hvs⟩ := List.mem_flatMap.mp h
      have hso : s ∈ order := hperm.mem_iff.mpr hs
      exact F64.le_trans ((hloc s hso).2.2 v hvs)
        (hle2 _ (List.mem_cons_of_mem _ (List.mem_map_of_mem _ hso)))
  · exact F64.le_trans (hle1 _ (List.mem_cons_self _ _)) (hle2 _ (List.mem_cons_self _ _))
  · intro hw h0 hfin s hs hdx
    have hs1 : s.1 = A := by
      rw [segments_getElem A B N hN 0 (by omega)] at hs
      have h1 := F64.add_zero_mul A (segment_length A B N) hw h0 hfin
      simp only [Nat.cast_zero] at hs
      rw [h1] at hs
      have := Option.some.inj hs
      rw [← this]
    have hs0 : samplePoint s.1 (stepWidth s.1 s.2 (Int.tdiv STEPS N)) 0 = A := by
      have h1 := F64.add_zero_mul s.1 _ (by rw [hs1]; exact hw) (by rw [hs1]; exact h0) hdx
      simp only [samplePoint, Nat.cast_zero]
      rw [h1, hs1]
    refine ⟨hs1, hs0, ?_⟩
    apply List.mem_map.mpr
    exact ⟨0, List.mem_range.mpr (by omega), by rw [hs0]⟩

set_option maxRecDepth 100000 in
theorem global_min_max_over_samples_witness :
    F64.le
      (mainMerged (fun x => x) (F64.ofInt 0) 4 4 (segments (F64.ofInt 0) (F64.ofInt 4) 4)).min
      (mainMerged (fun x => x) (F64.ofInt 0) 4 4 (segments (F64.ofInt 0) (F64.ofInt 4) 4)).max =
      true :=
  (global_min_max_over_samples (fun x => x) (F64.ofInt 0) (F64.ofInt 4) 4 4 (by decide)
    (by decide) (segments (F64.ofInt 0) (F64.ofInt 4) 4) (List.Perm.refl _)
    (by decide!)).2.2.1

/-! ## The constant function -/

set_option maxRecDepth 100000 in
/-- C7, scenario 1 of the specification (`f(x) = x`, `A = 0`, `B = 4`, `N = 4`,
`STEPS = 4`) with two workers, under the schedule in which the main thread takes its
first five steps before any worker is scheduled: at the output of the result the
three submitted segments are still queued, only the segment of the main thread has
been merged, and `(0, 3, 3)` is printed where all four segments give `(0, 3, 6)`;
the main thread then destroys the pool and the three tasks are never executed,
however often the workers are scheduled afterwards. -/
theorem main_prints_before_tasks_run :
    (mainRun (fun x => x) (F64.ofInt 0) (F64.ofInt 4) 4 4 2
        [Tick.main, Tick.main, Tick.main, Tick.main, Tick.main]).printed =
      some ⟨F64.ofInt 0, F64.ofInt 3, F64.ofInt 3⟩ ∧
    (mainRun (fun x => x) (F64.ofInt 0) (F64.ofInt 4) 4 4 2
        [Tick.main, Tick.main, Tick.main, Tick.main, Tick.main]).sys.pool.tasks =
      [(F64.ofInt 0, F64.ofInt 1), (F64.ofInt 1, F64.ofInt 2), (F64.ofInt 2, F64.ofInt 3)] ∧
    (mainRun (fun x => x) (F64.ofInt 0) (F64.ofInt 4) 4 4 2
        [Tick.main, Tick.main, Tick.main, Tick.main, Tick.main]).sys.log =
      [(F64.ofInt 3, F64.ofInt 4)] ∧
    mainMerged (fun x => x) (F64.ofInt 0) 4 4 (segments (F64.ofInt 0) (F64.ofInt 4) 4) =
      ⟨F64.ofInt 0, F64.ofInt 3, F64.ofInt 6⟩ ∧
    (mainRun (fun x => x) (F64.ofInt 0) (F64.ofInt 4) 4 4 2
        [Tick.main, Tick.main, Tick.main, Tick.main, Tick.main, Tick.main,
          Tick.worker 0, Tick.worker 1, Tick.worker 0, Tick.worker 1]).sys.log =
      [(F64.ofInt 3, F64.ofInt 4)] := by
  decide!

end PPHO
